import Mathlib

/-!
A shallow embedding of `PowerEditor/src/MISC/Common/Sorters.h`: sorting of
text lines, lexicographically or by a numeric key (signed 64-bit integer,
decimal with comma, decimal with dot).

Lines (`generic_string`) are lists of characters.  `std::sort` is modelled
relationally by its contract: the result is a permutation of the input that
is sorted for the supplied comparator (adjacent-wise); the relative order of
elements the comparator considers equivalent is left unspecified, exactly as
in the C++ standard.  The helpers `stringTakeWhileAdmissable`,
`stringReplace` and `stodLocale` live in `Common.cpp`, which is not among
the sources; they are modelled from the specification, as marked on their
doc comments.  `std::stoll` and the fixed-locale string-to-double conversion
are modelled from their documented semantics; for doubles the value is kept
as an exact rational (IEEE rounding and overflow of huge literals are not
modelled).
-/

namespace Sorters

/-- A line of text (`generic_string` in the source), as a list of characters. -/
abbrev Str := List Char

/-- The whitespace characters `" \t\r\n"` used by `considerStringEmpty` and
listed in every admissible character set. -/
def wsChars : List Char := [' ', '\t', '\r', '\n']

/-- `NumericSorter::considerStringEmpty`: true when the string has nothing
besides whitespace (`input.find_first_not_of(" \t\r\n") == npos`). -/
def considerStringEmpty (input : Str) : Bool :=
  input.all (fun c => decide (c ∈ wsChars))

/-- Modelled from the spec: `stringTakeWhileAdmissable` is defined in
`Common.cpp`, which is not part of the given sources; per the spec it keeps
the maximal leading run of characters from the admissible set and discards
everything from the first inadmissible character on. -/
def stringTakeWhileAdmissable (input : Str) (admissible : List Char) : Str :=
  input.takeWhile (fun c => decide (c ∈ admissible))

/-- Modelled from the spec: `stringReplace` (`Common.cpp`), specialised to
the single-character replacement done by `DecimalCommaSorter` (every comma
becomes a period). -/
def stringReplaceChar (input : Str) (a b : Char) : Str :=
  input.map (fun c => if c = a then b else c)

/-- Decimal value of a run of digit characters. -/
def digitsVal (ds : Str) : Nat :=
  ds.foldl (fun acc c => 10 * acc + (c.toNat - '0'.toNat)) 0

/-- The leading integer numeral read by `strtoll` base 10: skip whitespace,
read an optional sign, then the maximal run of digits; `none` when no digit
follows (`std::invalid_argument`). -/
def parseLeadingInt (s : Str) : Option Int :=
  let t := s.dropWhile (fun c => decide (c ∈ wsChars))
  let neg : Bool := decide (t.head? = some '-')
  let u : Str := if t.head? = some '-' ∨ t.head? = some '+' then t.tail else t
  let ds := u.takeWhile Char.isDigit
  if ds = [] then none
  else some (if neg then -(digitsVal ds : Int) else (digitsVal ds : Int))

/-- `IntegerSorter::convertStringToNumber`, i.e. `std::stoll`: the leading
numeral of the string, failing when there is none (`std::invalid_argument`)
or when its value leaves the signed 64-bit range (`std::out_of_range`).
Both exceptions are caught alike by `NumericSorter::sort`, so both are
`none` here. -/
def stollModel (s : Str) : Option Int :=
  match parseLeadingInt s with
  | none => none
  | some v => if -(2 ^ 63) ≤ v ∧ v ≤ 2 ^ 63 - 1 then some v else none

/-- Modelled from the spec: `stodLocale` (`Common.cpp`) converts with the
fixed "en-US" convention, i.e. plain `strtod` behaviour with a period as
decimal separator: skip whitespace, read an optional sign, digits, an
optional period and fraction digits; fail when no digit was read.  The
value is kept as an exact rational; IEEE rounding, exponents (whose letter
`e` never survives the admissible filter) and overflow of 300+-digit
literals are not modelled. -/
def stodModel (s : Str) : Option ℚ :=
  let t := s.dropWhile (fun c => decide (c ∈ wsChars))
  let neg : Bool := match t with | '-' :: _ => true | _ => false
  let u : Str := match t with | '-' :: rest => rest | '+' :: rest => rest | _ => t
  let intDs := u.takeWhile Char.isDigit
  let fracDs : Str :=
    match u.dropWhile Char.isDigit with
    | '.' :: r => r.takeWhile Char.isDigit
    | _ => []
  if intDs = [] ∧ fracDs = [] then none
  else
    let mag : ℚ :=
      mkRat ((digitsVal intDs * 10 ^ fracDs.length + digitsVal fracDs : Nat) : Int)
        (10 ^ fracDs.length)
    some (if neg then -mag else mag)

/-- Following the specification wording of section 4.4 (the stripped text is
parsed "as a base-10 signed 64-bit integer"): the whole stripped text, up to
surrounding whitespace, must be an optional minus sign followed by digits,
and its value must lie in the signed 64-bit range; `none` otherwise. -/
def specIntegerNumeral (s : Str) : Option Int :=
  let t := s.dropWhile (fun c => decide (c ∈ wsChars))
  let neg : Bool := decide (t.head? = some '-')
  let u : Str := if t.head? = some '-' then t.tail else t
  let ds := u.takeWhile Char.isDigit
  let rest := u.dropWhile Char.isDigit
  if ds ≠ [] ∧ rest.all (fun c => decide (c ∈ wsChars)) then
    let v : Int := if neg then -(digitsVal ds : Int) else (digitsVal ds : Int)
    if -(2 ^ 63) ≤ v ∧ v ≤ 2 ^ 63 - 1 then some v else none
  else none

/-- The string decomposes as whitespace, an optional sign, a non-empty digit
run whose (possibly negated) value is `v`, and a remainder that does not
begin with a digit. -/
def LeadingIntNumeral (s : Str) (v : Int) : Prop :=
  ∃ w sgn ds r : Str,
    (∀ c ∈ w, c ∈ wsChars) ∧
    (sgn = [] ∨ sgn = ['-'] ∨ sgn = ['+']) ∧
    ds ≠ [] ∧ (∀ c ∈ ds, c.isDigit = true) ∧
    (∀ c, r.head? = some c → c.isDigit = false) ∧
    s = w ++ sgn ++ ds ++ r ∧
    v = (if sgn = ['-'] then -(digitsVal ds : Int) else (digitsVal ds : Int))

/-- Character comparison of `generic_string::compare`: `strLt a b = true`
exactly when `a` precedes `b`, comparing character values position by
position and letting a proper prefix precede the longer string. -/
def strLt : Str → Str → Bool
  | [], [] => false
  | [], _ :: _ => true
  | _ :: _, [] => false
  | a :: as, b :: bs => if a < b then true else if b < a then false else strLt as bs

/-- The comparator handed to `std::sort` by `LexicographicSorter::sort`:
`a.compare(b) > 0` when descending, `a.compare(b) < 0` otherwise. -/
def lexCmp (descending : Bool) (a b : Str) : Bool :=
  if descending then strLt b a else strLt a b

/-- The comparator handed to `std::sort` by `NumericSorter::sort` on
`(original index, numeric key)` pairs: `a.second > b.second` when
descending, `a.second < b.second` otherwise. -/
def numLt {K : Type} [LinearOrder K] (descending : Bool) (a b : Nat × K) : Bool :=
  if descending then decide (b.2 < a.2) else decide (a.2 < b.2)

/-- `std::is_sorted` for a strict comparator: no adjacent pair is inverted. -/
def isSortedB {α : Type} (lt : α → α → Bool) : List α → Bool
  | [] => true
  | [_] => true
  | a :: b :: t => !lt b a && isSortedB lt (b :: t)

/-- The `std::sort` contract: the output is a permutation of the input and
is sorted for the comparator.  Which of the permutations with that property
comes out is unspecified. -/
def sortSpec {α : Type} (lt : α → α → Bool) (l out : List α) : Prop :=
  List.Perm l out ∧ isSortedB lt out = true

instance {ε α : Type} [DecidableEq ε] [DecidableEq α] : DecidableEq (Except ε α) := by
  intro a b
  cases a with
  | error i =>
    cases b with
    | error j => exact decidable_of_iff (i = j) (by simp)
    | ok y => exact isFalse (by intro h; exact Except.noConfusion h)
  | ok x =>
    cases b with
    | error j => exact isFalse (by intro h; exact Except.noConfusion h)
    | ok y => exact decidable_of_iff (x = y) (by simp)

/-- The classification loop of `NumericSorter::sort`, carrying the current
`lineIndex`: each line is prepared; a line whose prepared form is only
whitespace joins `empties`, otherwise its conversion result is paired with
its index, and a conversion failure throws the zero-based index of the
first offending line. -/
def classifyLinesAux {K : Type} (prepare : Str → Str) (conv : Str → Option K) :
    Nat → List Str → Except Nat (List (Nat × K) × List Str)
  | _, [] => Except.ok ([], [])
  | i, s :: rest =>
    if considerStringEmpty (prepare s) then
      match classifyLinesAux prepare conv (i + 1) rest with
      | Except.error j => Except.error j
      | Except.ok (ps, es) => Except.ok (ps, s :: es)
    else
      match conv (prepare s) with
      | none => Except.error i
      | some k =>
        match classifyLinesAux prepare conv (i + 1) rest with
        | Except.error j => Except.error j
        | Except.ok (ps, es) => Except.ok ((i, k) :: ps, es)

/-- The classification pass of `NumericSorter::sort` over the whole input. -/
def numericClassify {K : Type} (prepare : Str → Str) (conv : Str → Option K)
    (lines : List Str) : Except Nat (List (Nat × K) × List Str) :=
  classifyLinesAux prepare conv 0 lines

/-- A line on which the classification loop throws: its prepared form is not
just whitespace, yet conversion fails. -/
def lineFails {K : Type} (prepare : Str → Str) (conv : Str → Option K) (s : Str) : Bool :=
  !considerStringEmpty (prepare s) && (conv (prepare s)).isNone

/-- The output assembly of `NumericSorter::sort`: the sorted pairs are
mapped back to `lines[pair.first]`, and the empty lines are prepended when
ascending and appended when descending. -/
def assemble {K : Type} (descending : Bool) (lines : List Str)
    (sortedPairs : List (Nat × K)) (empties : List Str) : List Str :=
  let sortedLines := sortedPairs.map (fun p => lines.getD p.1 [])
  if descending then sortedLines ++ empties else empties ++ sortedLines

/-- The observable outcome of one `sort` call: a reordered line sequence, or
the thrown zero-based index of the first line that failed conversion (the
spec's `UnparseableLine`). -/
inductive SortResult where
  | failure : Nat → SortResult
  | success : List Str → SortResult
deriving DecidableEq

/-- `NumericSorter<T_Num>::sort` as a relation on outcomes: classification
is deterministic, and on success any `std::sort`-admissible ordering of the
`(index, key)` pairs may be assembled into the output. -/
def numericSortRel {K : Type} [LinearOrder K] (prepare : Str → Str)
    (conv : Str → Option K) (descending : Bool) (lines : List Str)
    (r : SortResult) : Prop :=
  (∃ i, numericClassify prepare conv lines = Except.error i ∧ r = SortResult.failure i) ∨
  (∃ ps es sortedPairs, numericClassify prepare conv lines = Except.ok (ps, es) ∧
    sortSpec (numLt descending) ps sortedPairs ∧
    r = SortResult.success (assemble descending lines sortedPairs es))

/-- The four concrete sorter classes. -/
inductive SortVariant where
  | lexicographic : SortVariant
  | integer : SortVariant
  | decimalComma : SortVariant
  | decimalDot : SortVariant
deriving DecidableEq

/-- The numeric key type of each sorter: `long long` for `IntegerSorter`,
`double` (kept exact as a rational) for the two decimal sorters.  The value
for the lexicographic variant is a placeholder; it converts nothing. -/
@[reducible] def keyType : SortVariant → Type
  | SortVariant.integer => Int
  | _ => ℚ

/-- The admissible character set of each grammar, exactly the string
literals passed to `stringTakeWhileAdmissable` by the three
`prepareStringForConversion` overrides. -/
def variantAdmissibleChars : SortVariant → List Char
  | SortVariant.lexicographic => []
  | SortVariant.integer => " \t\r\n0123456789-".data
  | SortVariant.decimalComma => " \t\r\n0123456789,-".data
  | SortVariant.decimalDot => " \t\r\n0123456789.-".data

/-- `prepareStringForConversion` of each variant: keep the admissible
leading run; the decimal-comma variant additionally rewrites every comma to
a period.  The lexicographic sorter has no preparation step. -/
def variantPrepare : SortVariant → Str → Str
  | SortVariant.lexicographic => fun s => s
  | SortVariant.integer => fun s =>
      stringTakeWhileAdmissable s (variantAdmissibleChars SortVariant.integer)
  | SortVariant.decimalComma => fun s =>
      stringReplaceChar
        (stringTakeWhileAdmissable s (variantAdmissibleChars SortVariant.decimalComma)) ',' '.'
  | SortVariant.decimalDot => fun s =>
      stringTakeWhileAdmissable s (variantAdmissibleChars SortVariant.decimalDot)

/-- `convertStringToNumber` of each variant. -/
def variantConv : (v : SortVariant) → Str → Option (keyType v)
  | SortVariant.lexicographic => fun _ => none
  | SortVariant.integer => stollModel
  | SortVariant.decimalComma => stodModel
  | SortVariant.decimalDot => stodModel

/-- Classification pass of a given numeric variant. -/
def variantClassify (v : SortVariant) (lines : List Str) :
    Except Nat (List (Nat × keyType v) × List Str) :=
  numericClassify (variantPrepare v) (variantConv v) lines

/-- A line on which a given numeric variant's classification throws. -/
def variantLineFails (v : SortVariant) (s : Str) : Bool :=
  lineFails (variantPrepare v) (variantConv v) s

/-- One `sort` call of the chosen sorter, as a relation between the input
lines plus direction and the outcome. -/
def sortRel : SortVariant → Bool → List Str → SortResult → Prop
  | SortVariant.lexicographic, descending, lines, r =>
      ∃ out, r = SortResult.success out ∧ sortSpec (lexCmp descending) lines out
  | SortVariant.integer, descending, lines, r =>
      numericSortRel (variantPrepare SortVariant.integer)
        (variantConv SortVariant.integer) descending lines r
  | SortVariant.decimalComma, descending, lines, r =>
      numericSortRel (variantPrepare SortVariant.decimalComma)
        (variantConv SortVariant.decimalComma) descending lines r
  | SortVariant.decimalDot, descending, lines, r =>
      numericSortRel (variantPrepare SortVariant.decimalDot)
        (variantConv SortVariant.decimalDot) descending lines r

/-- The empty-classified lines of the input, in original order. -/
def variantEmpties (v : SortVariant) (lines : List Str) : List Str :=
  lines.filter (fun s => considerStringEmpty (variantPrepare v s))

/-- The candidate (non-empty) lines of the input, in original order. -/
def variantCandidates (v : SortVariant) (lines : List Str) : List Str :=
  lines.filter (fun s => !considerStringEmpty (variantPrepare v s))

/-- Key order between two candidate lines for the requested direction; true
when either line has no key. -/
def candLeB {K : Type} [LinearOrder K] (prepare : Str → Str) (conv : Str → Option K)
    (descending : Bool) (a b : Str) : Bool :=
  match conv (prepare a), conv (prepare b) with
  | some ka, some kb => if descending then decide (kb ≤ ka) else decide (ka ≤ kb)
  | _, _ => true

/-- Key order between candidate lines of a given variant. -/
def variantCandLe : SortVariant → Bool → Str → Str → Bool
  | SortVariant.lexicographic, _, _, _ => true
  | SortVariant.integer, descending, a, b =>
      candLeB (variantPrepare SortVariant.integer)
        (variantConv SortVariant.integer) descending a b
  | SortVariant.decimalComma, descending, a, b =>
      candLeB (variantPrepare SortVariant.decimalComma)
        (variantConv SortVariant.decimalComma) descending a b
  | SortVariant.decimalDot, descending, a, b =>
      candLeB (variantPrepare SortVariant.decimalDot)
        (variantConv SortVariant.decimalDot) descending a b

/-- The numeric keys of a list of lines under a given variant. -/
def variantKeys (v : SortVariant) (cand : List Str) : List (Option (keyType v)) :=
  cand.map (fun s => variantConv v (variantPrepare v s))

/-! ### Basic facts about the comparators -/

theorem isSortedB_iff_chain' {α : Type} (lt : α → α → Bool) :
    ∀ l : List α, isSortedB lt l = true ↔ List.Chain' (fun a b => lt b a = false) l
  | [] => by simp [isSortedB]
  | [a] => by simp [isSortedB]
  | a :: b :: t => by
    have ih := isSortedB_iff_chain' lt (b :: t)
    simp [isSortedB, List.chain'_cons, ih, Bool.not_eq_true']

theorem strLt_nil_right : ∀ a : Str, strLt a [] = false
  | [] => rfl
  | _ :: _ => rfl

theorem strLt_antisymm : ∀ a b : Str, strLt a b = false → strLt b a = false → a = b
  | [], [], _, _ => rfl
  | [], _ :: _, h, _ => by simp [strLt] at h
  | _ :: _, [], _, h => by simp [strLt] at h
  | a :: as, b :: bs, h, h2 => by
    simp only [strLt] at h h2
    by_cases hab : a < b
    · simp [hab] at h
    · by_cases hba : b < a
      · simp [hba, hab] at h2
      · have hEq : a = b := le_antisymm (le_of_not_lt hba) (le_of_not_lt hab)
        subst hEq
        simp [lt_irrefl] at h h2
        rw [strLt_antisymm as bs h h2]

theorem strLt_le_trans : ∀ a b c : Str, strLt b a = false → strLt c b = false →
    strLt c a = false
  | [], _, c, _, _ => strLt_nil_right c
  | _ :: _, [], _, h, _ => by simp [strLt] at h
  | _ :: _, _ :: _, [], _, h2 => by simp [strLt] at h2
  | a :: as, b :: bs, c :: cs, h, h2 => by
    simp only [strLt] at h h2 ⊢
    by_cases hba : b < a
    · simp [hba] at h
    · by_cases hcb : c < b
      · simp [hcb] at h2
      · have hab : a ≤ b := le_of_not_lt hba
        have hbc : b ≤ c := le_of_not_lt hcb
        by_cases hca : c < a
        · exact absurd (lt_of_lt_of_le hca (le_trans hab hbc)) (lt_irrefl c)
        · by_cases hac : a < c
          · simp [hca, hac]
          · have hEqac : a = c := le_antisymm (le_of_not_lt hca) (le_of_not_lt hac)
            have hEqab : a = b := le_antisymm hab (hEqac ▸ hbc)
            subst hEqac
            subst hEqab
            simp [lt_irrefl] at h h2 ⊢
            exact strLt_le_trans as bs cs h h2

/-- The non-strict ascending order on lines, as `std::sort` leaves it. -/
theorem strAsc_isTrans : IsTrans Str (fun a b => strLt b a = false) :=
  ⟨fun a b c h1 h2 => strLt_le_trans a b c h1 h2⟩

theorem strAsc_isAntisymm : IsAntisymm Str (fun a b => strLt b a = false) :=
  ⟨fun a b h1 h2 => (strLt_antisymm b a h1 h2).symm⟩

theorem strDesc_isTrans : IsTrans Str (fun a b => strLt a b = false) :=
  ⟨fun a b c h1 h2 => strLt_le_trans c b a h2 h1⟩

theorem strDesc_isAntisymm : IsAntisymm Str (fun a b => strLt a b = false) :=
  ⟨fun a b h1 h2 => strLt_antisymm a b h1 h2⟩

/-! ### Facts about the classification loop -/

theorem getD_append_length {α : Type} (d : α) :
    ∀ (pre : List α) (a : α) (rest : List α), (pre ++ a :: rest).getD pre.length d = a
  | [], _, _ => rfl
  | x :: pre, a, rest => by
    simpa [List.getD] using getD_append_length d pre a rest

theorem classify_ok_empties {K : Type} (prepare : Str → Str) (conv : Str → Option K)
    (n : Nat) (ls : List Str) (ps : List (Nat × K)) (es : List Str)
    (h : classifyLinesAux prepare conv n ls = Except.ok (ps, es)) :
    es = ls.filter (fun s => considerStringEmpty (prepare s)) := by
  induction ls generalizing n ps es with
  | nil =>
    simp [classifyLinesAux] at h
    simp [h.2]
  | cons s rest ih =>
    simp only [classifyLinesAux] at h
    by_cases hemp : considerStringEmpty (prepare s)
    · rw [if_pos hemp] at h
      cases hrec : classifyLinesAux prepare conv (n + 1) rest with
      | error j => rw [hrec] at h; exact absurd h (by simp)
      | ok pe =>
        rw [hrec] at h
        simp only [Except.ok.injEq, Prod.mk.injEq] at h
        obtain ⟨hps, hes⟩ := h
        rw [← hes, List.filter_cons, hemp]
        simpa using ih (n + 1) pe.1 pe.2 (by rw [hrec])
    · rw [if_neg hemp] at h
      cases hconv : conv (prepare s) with
      | none => rw [hconv] at h; exact absurd h (by simp)
      | some k =>
        rw [hconv] at h
        cases hrec : classifyLinesAux prepare conv (n + 1) rest with
        | error j => rw [hrec] at h; exact absurd h (by simp)
        | ok pe =>
          rw [hrec] at h
          simp only [Except.ok.injEq, Prod.mk.injEq] at h
          obtain ⟨hps, hes⟩ := h
          rw [← hes, List.filter_cons]
          simp only [hemp, if_neg]
          simpa [hemp] using ih (n + 1) pe.1 pe.2 (by rw [hrec])

theorem classify_ok_candidates {K : Type} (prepare : Str → Str) (conv : Str → Option K)
    (pre ls : List Str) (ps : List (Nat × K)) (es : List Str)
    (h : classifyLinesAux prepare conv pre.length ls = Except.ok (ps, es)) :
    ps.map (fun p => (pre ++ ls).getD p.1 []) =
      ls.filter (fun s => !considerStringEmpty (prepare s)) := by
  induction ls generalizing pre ps es with
  | nil =>
    simp [classifyLinesAux] at h
    simp [h.1]
  | cons s rest ih =>
    simp only [classifyLinesAux] at h
    have hlen : (pre ++ [s]).length = pre.length + 1 := by simp
    have happ : (pre ++ [s]) ++ rest = pre ++ s :: rest := by simp
    by_cases hemp : considerStringEmpty (prepare s)
    · rw [if_pos hemp] at h
      cases hrec : classifyLinesAux prepare conv (pre.length + 1) rest with
      | error j => rw [hrec] at h; exact absurd h (by simp)
      | ok pe =>
        rw [hrec] at h
        simp only [Except.ok.injEq, Prod.mk.injEq] at h
        obtain ⟨hps, hes⟩ := h
        have ihh := ih (pre ++ [s]) pe.1 pe.2 (by rw [hlen, hrec])
        rw [happ] at ihh
        rw [← hps, List.filter_cons]
        simp only [hemp, Bool.not_true, if_neg]
        simpa using ihh
    · rw [if_neg hemp] at h
      cases hconv : conv (prepare s) with
      | none => rw [hconv] at h; exact absurd h (by simp)
      | some k =>
        rw [hconv] at h
        cases hrec : classifyLinesAux prepare conv (pre.length + 1) rest with
        | error j => rw [hrec] at h; exact absurd h (by simp)
        | ok pe =>
          rw [hrec] at h
          simp only [Except.ok.injEq, Prod.mk.injEq] at h
          obtain ⟨hps, hes⟩ := h
          have ihh := ih (pre ++ [s]) pe.1 pe.2 (by rw [hlen, hrec])
          rw [happ] at ihh
          rw [← hps, List.filter_cons]
          simp only [hemp, Bool.not_false, if_pos, List.map_cons]
          rw [getD_append_length [] pre s rest, ihh]

theorem classify_ok_keys {K : Type} (prepare : Str → Str) (conv : Str → Option K)
    (pre ls : List Str) (ps : List (Nat × K)) (es : List Str)
    (h : classifyLinesAux prepare conv pre.length ls = Except.ok (ps, es)) :
    ∀ q ∈ ps, conv (prepare ((pre ++ ls).getD q.1 [])) = some q.2 := by
  induction ls generalizing pre ps es with
  | nil =>
    simp [classifyLinesAux] at h
    simp [h.1]
  | cons s rest ih =>
    simp only [classifyLinesAux] at h
    have hlen : (pre ++ [s]).length = pre.length + 1 := by simp
    have happ : (pre ++ [s]) ++ rest = pre ++ s :: rest := by simp
    by_cases hemp : considerStringEmpty (prepare s)
    · rw [if_pos hemp] at h
      cases hrec : classifyLinesAux prepare conv (pre.length + 1) rest with
      | error j => rw [hrec] at h; exact absurd h (by simp)
      | ok pe =>
        rw [hrec] at h
        simp only [Except.ok.injEq, Prod.mk.injEq] at h
        obtain ⟨hps, hes⟩ := h
        have ihh := ih (pre ++ [s]) pe.1 pe.2 (by rw [hlen, hrec])
        rw [happ] at ihh
        rw [← hps]
        exact ihh
    · rw [if_neg hemp] at h
      cases hconv : conv (prepare s) with
      | none => rw [hconv] at h; exact absurd h (by simp)
      | some k =>
        rw [hconv] at h
        cases hrec : classifyLinesAux prepare conv (pre.length + 1) rest with
        | error j => rw [hrec] at h; exact absurd h (by simp)
        | ok pe =>
          rw [hrec] at h
          simp only [Except.ok.injEq, Prod.mk.injEq] at h
          obtain ⟨hps, hes⟩ := h
          have ihh := ih (pre ++ [s]) pe.1 pe.2 (by rw [hlen, hrec])
          rw [happ] at ihh
          intro q hq
          rw [← hps] at hq
          rcases List.mem_cons.mp hq with hq0 | hqtl
          · subst hq0
            rw [getD_append_length [] pre s rest]
            exact hconv
          · exact ihh q hqtl

theorem classify_ok_iff {K : Type} (prepare : Str → Str) (conv : Str → Option K)
    (n : Nat) (ls : List Str) :
    (∃ ps es, classifyLinesAux prepare conv n ls = Except.ok (ps, es)) ↔
      ∀ s ∈ ls, lineFails prepare conv s = false := by
  induction ls generalizing n with
  | nil => simp [classifyLinesAux]
  | cons s rest ih =>
    simp only [classifyLinesAux, List.mem_cons]
    constructor
    · rintro ⟨ps, es, h⟩
      by_cases hemp : considerStringEmpty (prepare s)
      · rw [if_pos hemp] at h
        cases hrec : classifyLinesAux prepare conv (n + 1) rest with
        | error j => rw [hrec] at h; exact absurd h (by simp)
        | ok pe =>
          intro t ht
          rcases ht with ht0 | httl
          · subst ht0; simp [lineFails, hemp]
          · exact ((ih (n + 1)).mp ⟨pe.1, pe.2, by rw [hrec]⟩) t httl
      · rw [if_neg hemp] at h
        cases hconv : conv (prepare s) with
        | none => rw [hconv] at h; exact absurd h (by simp)
        | some k =>
          rw [hconv] at h
          cases hrec : classifyLinesAux prepare conv (n + 1) rest with
          | error j => rw [hrec] at h; exact absurd h (by simp)
          | ok pe =>
            intro t ht
            rcases ht with ht0 | httl
            · subst ht0; simp [lineFails, hconv]
            · exact ((ih (n + 1)).mp ⟨pe.1, pe.2, by rw [hrec]⟩) t httl
    · intro hall
      have hs := hall s (Or.inl rfl)
      have hrest := (ih (n + 1)).mpr (fun t ht => hall t (Or.inr ht))
      obtain ⟨ps, es, hrec⟩ := hrest
      by_cases hemp : considerStringEmpty (prepare s)
      · rw [if_pos hemp, hrec]
        exact ⟨ps, s :: es, rfl⟩
      · cases hconv : conv (prepare s) with
        | none => simp [lineFails, hemp, hconv] at hs
        | some k =>
          rw [if_neg hemp]
          simp only [hrec]
          exact ⟨(n, k) :: ps, es, rfl⟩

theorem classify_error_spec {K : Type} (prepare : Str → Str) (conv : Str → Option K)
    (n : Nat) (ls : List Str) (j : Nat)
    (h : classifyLinesAux prepare conv n ls = Except.error j) :
    ∃ m, m < ls.length ∧ j = n + m ∧ lineFails prepare conv (ls.getD m []) = true ∧
      ∀ m' < m, lineFails prepare conv (ls.getD m' []) = false := by
  induction ls generalizing n j with
  | nil => simp [classifyLinesAux] at h
  | cons s rest ih =>
    simp only [classifyLinesAux] at h
    by_cases hemp : considerStringEmpty (prepare s)
    · rw [if_pos hemp] at h
      cases hrec : classifyLinesAux prepare conv (n + 1) rest with
      | error j2 =>
        rw [hrec] at h
        simp only [Except.error.injEq] at h
        subst h
        obtain ⟨m, hm, hj, hf, hmin⟩ := ih (n + 1) j2 hrec
        refine ⟨m + 1, by simpa using hm, by omega, by simpa using hf, ?_⟩
        intro m' hm'
        cases m' with
        | zero => simp [lineFails, hemp]
        | succ m'' => exact hmin m'' (by omega)
      | ok pe => rw [hrec] at h; exact absurd h (by simp)
    · rw [if_neg hemp] at h
      cases hconv : conv (prepare s) with
      | none =>
        rw [hconv] at h
        simp only [Except.error.injEq] at h
        subst h
        exact ⟨0, by simp, by simp, by simp [lineFails, hemp, hconv], by simp⟩
      | some k =>
        rw [hconv] at h
        cases hrec : classifyLinesAux prepare conv (n + 1) rest with
        | error j2 =>
          rw [hrec] at h
          simp only [Except.error.injEq] at h
          subst h
          obtain ⟨m, hm, hj, hf, hmin⟩ := ih (n + 1) j2 hrec
          refine ⟨m + 1, by simpa using hm, by omega, by simpa using hf, ?_⟩
          intro m' hm'
          cases m' with
          | zero => simp [lineFails, hconv]
          | succ m'' => exact hmin m'' (by omega)
        | ok pe => rw [hrec] at h; exact absurd h (by simp)

theorem classify_all_empty {K : Type} (prepare : Str → Str) (conv : Str → Option K)
    (n : Nat) (ls : List Str) (hall : ∀ s ∈ ls, considerStringEmpty (prepare s) = true) :
    classifyLinesAux prepare conv n ls = Except.ok ([], ls) := by
  induction ls generalizing n with
  | nil => simp [classifyLinesAux]
  | cons s rest ih =>
    have hs := hall s (List.mem_cons_self s rest)
    have hrec := ih (n + 1) (fun t ht => hall t (List.mem_cons_of_mem s ht))
    simp [classifyLinesAux, hs, hrec]

/-! ### Permutation and structure of successful numeric sorts -/

theorem eq_of_perm_of_map_eq {α β : Type} (f : α → β) :
    ∀ (l₁ l₂ : List α), List.Perm l₁ l₂ → l₁.map f = l₂.map f →
      (l₁.map f).Nodup → l₁ = l₂
  | [], l₂, hp, _, _ => by simpa using (List.Perm.nil_eq hp).symm
  | a :: t₁, l₂, hp, hm, hnd => by
    cases l₂ with
    | nil => exact absurd hp (by simp)
    | cons b t₂ =>
      simp only [List.map_cons, List.cons.injEq] at hm
      obtain ⟨hfab, htl⟩ := hm
      have hab : a = b := by
        by_contra hne
        have hmem : a ∈ b :: t₂ := hp.mem_iff.mp (List.mem_cons_self a t₁)
        have hat2 : a ∈ t₂ := by
          rcases List.mem_cons.mp hmem with h0 | h1
          · exact absurd h0 hne
          · exact h1
        have : f a ∈ t₂.map f := List.mem_map_of_mem f hat2
        rw [← htl] at this
        simp only [List.map_cons, List.nodup_cons] at hnd
        exact hnd.1 (hfab ▸ this)
      subst hab
      have hp' := hp.cons_inv
      simp only [List.map_cons, List.nodup_cons] at hnd
      rw [eq_of_perm_of_map_eq f t₁ t₂ hp' htl hnd.2]

theorem numericSortRel_ok_perm {K : Type} [LinearOrder K] (prepare : Str → Str)
    (conv : Str → Option K) (descending : Bool) (lines out : List Str)
    (h : numericSortRel prepare conv descending lines (SortResult.success out)) :
    List.Perm out lines := by
  rcases h with ⟨i, _, hr⟩ | ⟨ps, es, sp, hcl, ⟨hperm, _⟩, hr⟩
  · exact absurd hr (by simp)
  · have hout : out = assemble descending lines sp es := by
      injection hr
    have hes := classify_ok_empties prepare conv 0 lines ps es hcl
    have hcand := classify_ok_candidates prepare conv [] lines ps es hcl
    simp only [List.nil_append] at hcand
    have hmap : List.Perm (sp.map (fun p => lines.getD p.1 []))
        (lines.filter (fun s => !considerStringEmpty (prepare s))) := by
      rw [← hcand]
      exact (hperm.map (fun p => lines.getD p.1 [])).symm
    have hsplit : List.Perm
        (lines.filter (fun s => !considerStringEmpty (prepare s)) ++
          lines.filter (fun s => considerStringEmpty (prepare s))) lines := by
      have := List.filter_append_perm (fun s => !considerStringEmpty (prepare s)) lines
      simpa [Bool.not_not] using this
    subst hout hes
    unfold assemble
    cases descending with
    | true =>
      simp only [if_pos]
      exact (hmap.append (List.Perm.refl _)).trans hsplit
    | false =>
      simp only [if_neg]
      exact (List.perm_append_comm.trans ((hmap.append (List.Perm.refl _)).trans hsplit))

/-! ### Auxiliary list and character lemmas -/

theorem head_dropWhile_false {α : Type} (p : α → Bool) (l : List α) (c : α)
    (h : (l.dropWhile p).head? = some c) : p c = false := by
  have hmatch := List.head?_dropWhile_not p l
  rw [h] at hmatch
  exact hmatch

theorem takeWhile_append_of_all {α : Type} (p : α → Bool) :
    ∀ l r : List α, (∀ c ∈ l, p c = true) → (∀ c, r.head? = some c → p c = false) →
      (l ++ r).takeWhile p = l
  | [], r, _, hr => by
    cases r with
    | nil => rfl
    | cons c t =>
      simp only [List.nil_append, List.takeWhile_cons]
      rw [hr c rfl]
      simp
  | a :: l, r, hl, hr => by
    have hpa := hl a (List.mem_cons_self a l)
    simp only [List.cons_append]
    rw [List.takeWhile_cons_of_pos hpa,
      takeWhile_append_of_all p l r (fun c hc => hl c (List.mem_cons_of_mem a hc)) hr]

theorem dropWhile_append_of_all {α : Type} (p : α → Bool) :
    ∀ l r : List α, (∀ c ∈ l, p c = true) → (∀ c, r.head? = some c → p c = false) →
      (l ++ r).dropWhile p = r
  | [], r, _, hr => by
    cases r with
    | nil => rfl
    | cons c t =>
      simp only [List.nil_append]
      exact List.dropWhile_cons_of_neg (by rw [hr c rfl]; exact Bool.false_ne_true)
  | a :: l, r, hl, hr => by
    have hpa := hl a (List.mem_cons_self a l)
    simp only [List.cons_append]
    rw [List.dropWhile_cons_of_pos hpa,
      dropWhile_append_of_all p l r (fun c hc => hl c (List.mem_cons_of_mem a hc)) hr]

theorem ws_not_digit : ∀ c ∈ wsChars, c.isDigit = false := by decide

theorem digit_not_ws (c : Char) (h : c.isDigit = true) : decide (c ∈ wsChars) = false := by
  rw [decide_eq_false_iff_not]
  intro hc
  rw [ws_not_digit c hc] at h
  exact Bool.noConfusion h

/-! ### Sortedness of the assembled candidate block -/

theorem chain'_map_of_keys {K : Type} [LinearOrder K] (prepare : Str → Str)
    (conv : Str → Option K) (descending : Bool) (lines : List Str) :
    ∀ sp : List (Nat × K),
      (∀ q ∈ sp, conv (prepare (lines.getD q.1 [])) = some q.2) →
      List.Chain' (fun a b => numLt descending b a = false) sp →
      List.Chain' (fun a b => candLeB prepare conv descending a b = true)
        (sp.map (fun p => lines.getD p.1 []))
  | [], _, _ => by simp
  | [q], _, _ => by simp
  | q1 :: q2 :: t, hkeys, hchain => by
    rw [List.chain'_cons] at hchain
    simp only [List.map_cons, List.chain'_cons]
    refine ⟨?_, ?_⟩
    · have hk1 := hkeys q1 (List.mem_cons_self _ _)
      have hk2 := hkeys q2 (List.mem_cons_of_mem _ (List.mem_cons_self _ _))
      unfold candLeB
      rw [hk1, hk2]
      cases descending with
      | false =>
        have hle : q1.2 ≤ q2.2 := by
          have := hchain.1
          simp [numLt] at this
          exact this
        simp [hle]
      | true =>
        have hle : q2.2 ≤ q1.2 := by
          have := hchain.1
          simp [numLt] at this
          exact this
        simp [hle]
    · have := chain'_map_of_keys prepare conv descending lines (q2 :: t)
        (fun q hq => hkeys q (List.mem_cons_of_mem _ hq)) hchain.2
      simpa using this

theorem numericSortRel_ok_structure {K : Type} [LinearOrder K] (prepare : Str → Str)
    (conv : Str → Option K) (descending : Bool) (lines out : List Str)
    (h : numericSortRel prepare conv descending lines (SortResult.success out)) :
    ∃ cand,
      (out = if descending
        then cand ++ lines.filter (fun s => considerStringEmpty (prepare s))
        else lines.filter (fun s => considerStringEmpty (prepare s)) ++ cand) ∧
      List.Perm cand (lines.filter (fun s => !considerStringEmpty (prepare s))) ∧
      List.Chain' (fun a b => candLeB prepare conv descending a b = true) cand := by
  rcases h with ⟨i, _, hr⟩ | ⟨ps, es, sp, hcl, ⟨hperm, hsort⟩, hr⟩
  · exact absurd hr (by simp)
  · have hout : out = assemble descending lines sp es := by injection hr
    have hes := classify_ok_empties prepare conv 0 lines ps es hcl
    have hcand := classify_ok_candidates prepare conv [] lines ps es hcl
    simp only [List.nil_append] at hcand
    have hkeysPs := classify_ok_keys prepare conv [] lines ps es hcl
    simp only [List.nil_append] at hkeysPs
    have hkeysSp : ∀ q ∈ sp, conv (prepare (lines.getD q.1 [])) = some q.2 :=
      fun q hq => hkeysPs q (hperm.mem_iff.mpr hq)
    refine ⟨sp.map (fun p => lines.getD p.1 []), ?_, ?_, ?_⟩
    · rw [hout, hes]
      unfold assemble
      cases descending <;> simp
    · rw [← hcand]
      exact (hperm.map _).symm
    · exact chain'_map_of_keys prepare conv descending lines sp hkeysSp
        ((isSortedB_iff_chain' _ sp).mp hsort)

/-! ### Uniqueness and direction reversal of the sorted pairs -/

theorem keys_sorted_asc {K : Type} [LinearOrder K] (sp : List (Nat × K))
    (h : isSortedB (numLt false) sp = true) :
    List.Sorted (fun a b : K => a ≤ b) (sp.map Prod.snd) := by
  have hch := (isSortedB_iff_chain' _ sp).mp h
  have hch2 : List.Chain' (fun a b : K => a ≤ b) (sp.map Prod.snd) := by
    rw [List.chain'_map]
    refine hch.imp ?_
    intro a b hab
    simp [numLt] at hab
    exact hab
  exact List.chain'_iff_pairwise.mp hch2

theorem keys_sorted_desc {K : Type} [LinearOrder K] (sp : List (Nat × K))
    (h : isSortedB (numLt true) sp = true) :
    List.Sorted (fun a b : K => a ≤ b) ((sp.map Prod.snd).reverse) := by
  have hch := (isSortedB_iff_chain' _ sp).mp h
  have hch2 : List.Chain' (fun a b : K => b ≤ a) (sp.map Prod.snd) := by
    rw [List.chain'_map]
    refine hch.imp ?_
    intro a b hab
    simp [numLt] at hab
    exact hab
  have hrev : List.Chain' (fun a b : K => a ≤ b) ((sp.map Prod.snd).reverse) :=
    List.chain'_reverse.mpr hch2
  exact List.chain'_iff_pairwise.mp hrev

theorem sortSpec_pairs_unique {K : Type} [LinearOrder K] (descending : Bool)
    (ps sp1 sp2 : List (Nat × K)) (hnd : (ps.map Prod.snd).Nodup)
    (h1 : sortSpec (numLt descending) ps sp1)
    (h2 : sortSpec (numLt descending) ps sp2) : sp1 = sp2 := by
  obtain ⟨hp1, hs1⟩ := h1
  obtain ⟨hp2, hs2⟩ := h2
  have hperm : List.Perm sp1 sp2 := hp1.symm.trans hp2
  have hnd1 : (sp1.map Prod.snd).Nodup := ((hp1.map Prod.snd).nodup_iff).mp hnd
  have hkeys : sp1.map Prod.snd = sp2.map Prod.snd := by
    cases descending with
    | false =>
      exact List.eq_of_perm_of_sorted (hperm.map Prod.snd)
        (keys_sorted_asc sp1 hs1) (keys_sorted_asc sp2 hs2)
    | true =>
      have hrev : (sp1.map Prod.snd).reverse = (sp2.map Prod.snd).reverse :=
        List.eq_of_perm_of_sorted
          (((List.reverse_perm _).trans (hperm.map Prod.snd)).trans
            (List.reverse_perm _).symm)
          (keys_sorted_desc sp1 hs1) (keys_sorted_desc sp2 hs2)
      exact List.reverse_injective hrev
  exact eq_of_perm_of_map_eq Prod.snd sp1 sp2 hperm hkeys hnd1

theorem sortSpec_keys_reverse {K : Type} [LinearOrder K]
    (ps spA spD : List (Nat × K))
    (hA : sortSpec (numLt false) ps spA) (hD : sortSpec (numLt true) ps spD) :
    spD.map Prod.snd = (spA.map Prod.snd).reverse := by
  obtain ⟨hpA, hsA⟩ := hA
  obtain ⟨hpD, hsD⟩ := hD
  have hperm : List.Perm ((spD.map Prod.snd).reverse) (spA.map Prod.snd) :=
    (List.reverse_perm _).trans ((hpD.symm.trans hpA).map Prod.snd)
  have heq := List.eq_of_perm_of_sorted hperm
    (keys_sorted_desc spD hsD) (keys_sorted_asc spA hsA)
  rw [← heq, List.reverse_reverse]

/-! ### Failure behaviour and determinism of the numeric sort -/

theorem numericSortRel_failure_iff {K : Type} [LinearOrder K] (prepare : Str → Str)
    (conv : Str → Option K) (descending : Bool) (lines : List Str) (i : Nat) :
    numericSortRel prepare conv descending lines (SortResult.failure i) ↔
      numericClassify prepare conv lines = Except.error i := by
  constructor
  · rintro (⟨j, hcl, hr⟩ | ⟨_, _, _, _, _, hr⟩)
    · injection hr with hij
      rw [hij]
      exact hcl
    · exact absurd hr (by simp)
  · intro h
    exact Or.inl ⟨i, h, rfl⟩

theorem numericSortRel_fail_spec {K : Type} [LinearOrder K] (prepare : Str → Str)
    (conv : Str → Option K) (descending : Bool) (lines : List Str)
    (hex : ∃ i, i < lines.length ∧ lineFails prepare conv (lines.getD i []) = true) :
    ∃ i, i < lines.length ∧ lineFails prepare conv (lines.getD i []) = true ∧
      (∀ j < i, lineFails prepare conv (lines.getD j []) = false) ∧
      numericSortRel prepare conv descending lines (SortResult.failure i) ∧
      ∀ out, ¬ numericSortRel prepare conv descending lines (SortResult.success out) := by
  cases hcl : numericClassify prepare conv lines with
  | ok pe =>
    exfalso
    obtain ⟨i, hi, hf⟩ := hex
    have hall := (classify_ok_iff prepare conv 0 lines).mp ⟨pe.1, pe.2, hcl⟩
    have hmem : lines.getD i [] ∈ lines := by
      rw [List.getD_eq_getElem lines [] hi]
      exact List.getElem_mem hi
    rw [hall (lines.getD i []) hmem] at hf
    exact Bool.noConfusion hf
  | error j =>
    obtain ⟨m, hm, hj, hf, hmin⟩ := classify_error_spec prepare conv 0 lines j hcl
    have hjm : j = m := by omega
    subst hjm
    refine ⟨j, hm, hf, hmin, (numericSortRel_failure_iff _ _ _ _ _).mpr hcl, ?_⟩
    rintro out (⟨i', hcl', hr⟩ | ⟨ps, es, sp, hcl', _, hr⟩)
    · exact SortResult.noConfusion hr
    · rw [hcl] at hcl'
      exact Except.noConfusion hcl'

theorem numericSortRel_unique {K : Type} [LinearOrder K] (prepare : Str → Str)
    (conv : Str → Option K) (descending : Bool) (lines : List Str)
    (hnd : ∀ ps es, numericClassify prepare conv lines = Except.ok (ps, es) →
      (ps.map Prod.snd).Nodup)
    (r1 r2 : SortResult) (h1 : numericSortRel prepare conv descending lines r1)
    (h2 : numericSortRel prepare conv descending lines r2) : r1 = r2 := by
  rcases h1 with ⟨i1, hcl1, hr1⟩ | ⟨ps1, es1, sp1, hcl1, hs1, hr1⟩ <;>
    rcases h2 with ⟨i2, hcl2, hr2⟩ | ⟨ps2, es2, sp2, hcl2, hs2, hr2⟩
  · rw [hcl1] at hcl2
    injection hcl2 with hi
    rw [hr1, hr2, hi]
  · rw [hcl1] at hcl2
    exact Except.noConfusion hcl2
  · rw [hcl1] at hcl2
    exact Except.noConfusion hcl2
  · rw [hcl1] at hcl2
    injection hcl2 with hpe
    injection hpe with hps hes
    subst hps hes
    rw [hr1, hr2, sortSpec_pairs_unique descending ps1 sp1 sp2
      (hnd ps1 es1 hcl1) hs1 hs2]

theorem numericSortRel_reverse {K : Type} [LinearOrder K] (prepare : Str → Str)
    (conv : Str → Option K) (lines o1 o2 : List Str)
    (h1 : numericSortRel prepare conv false lines (SortResult.success o1))
    (h2 : numericSortRel prepare conv true lines (SortResult.success o2)) :
    ∃ c1 c2,
      o1 = lines.filter (fun s => considerStringEmpty (prepare s)) ++ c1 ∧
      o2 = c2 ++ lines.filter (fun s => considerStringEmpty (prepare s)) ∧
      List.Perm c2 c1 ∧
      c2.map (fun s => conv (prepare s)) =
        (c1.map (fun s => conv (prepare s))).reverse := by
  rcases h1 with ⟨i, _, hr⟩ | ⟨ps1, es1, spA, hcl1, hsA, hr1⟩
  · exact absurd hr (by simp)
  rcases h2 with ⟨i, _, hr⟩ | ⟨ps2, es2, spD, hcl2, hsD, hr2⟩
  · exact absurd hr (by simp)
  rw [hcl1] at hcl2
  injection hcl2 with hpe
  injection hpe with hps hes
  subst hps hes
  have hkeysPs := classify_ok_keys prepare conv [] lines ps1 es1 hcl1
  simp only [List.nil_append] at hkeysPs
  have hes1 := classify_ok_empties prepare conv 0 lines ps1 es1 hcl1
  have ho1 : o1 = assemble false lines spA es1 := by injection hr1
  have ho2 : o2 = assemble true lines spD es1 := by injection hr2
  have hkeysA : ∀ q ∈ spA, conv (prepare (lines.getD q.1 [])) = some q.2 :=
    fun q hq => hkeysPs q (hsA.1.mem_iff.mpr hq)
  have hkeysD : ∀ q ∈ spD, conv (prepare (lines.getD q.1 [])) = some q.2 :=
    fun q hq => hkeysPs q (hsD.1.mem_iff.mpr hq)
  refine ⟨spA.map (fun p => lines.getD p.1 []), spD.map (fun p => lines.getD p.1 []),
    ?_, ?_, ?_, ?_⟩
  · rw [ho1, hes1]
    unfold assemble
    simp
  · rw [ho2, hes1]
    unfold assemble
    simp
  · exact (hsD.1.symm.trans hsA.1).map _
  · have hmapA : (spA.map (fun p => lines.getD p.1 [])).map (fun s => conv (prepare s)) =
        spA.map (fun q => some q.2) := by
      rw [List.map_map]
      exact List.map_congr_left (fun q hq => hkeysA q hq)
    have hmapD : (spD.map (fun p => lines.getD p.1 [])).map (fun s => conv (prepare s)) =
        spD.map (fun q => some q.2) := by
      rw [List.map_map]
      exact List.map_congr_left (fun q hq => hkeysD q hq)
    rw [hmapA, hmapD]
    have hrev := sortSpec_keys_reverse ps1 spA spD hsA hsD
    have : spD.map (fun q => some q.2) = (spD.map Prod.snd).map some := by
      rw [List.map_map]; rfl
    rw [this, hrev]
    rw [show spA.map (fun q => some q.2) = (spA.map Prod.snd).map some from by
      rw [List.map_map]; rfl]
    simp [List.map_reverse]

/-! ### Conversion of whitespace-only strings always fails -/

theorem dropWhile_ws_of_empty (s : Str) (h : considerStringEmpty s = true) :
    s.dropWhile (fun c => decide (c ∈ wsChars)) = [] := by
  rw [List.dropWhile_eq_nil_iff]
  intro c hc
  exact List.all_eq_true.mp h c hc

theorem stollModel_of_empty (s : Str) (h : considerStringEmpty s = true) :
    stollModel s = none := by
  unfold stollModel parseLeadingInt
  rw [dropWhile_ws_of_empty s h]
  rfl

theorem stodModel_of_empty (s : Str) (h : considerStringEmpty s = true) :
    stodModel s = none := by
  unfold stodModel
  rw [dropWhile_ws_of_empty s h]
  rfl

/-! ### Uniqueness for a totally antisymmetric comparator -/

theorem sortSpec_unique_of_antisymm {α : Type} (lt : α → α → Bool)
    (htrans : ∀ a b c, lt b a = false → lt c b = false → lt c a = false)
    (hanti : ∀ a b, lt b a = false → lt a b = false → a = b)
    (l out1 out2 : List α) (h1 : sortSpec lt l out1) (h2 : sortSpec lt l out2) :
    out1 = out2 := by
  haveI : IsTrans α (fun a b => lt b a = false) := ⟨htrans⟩
  haveI : IsAntisymm α (fun a b => lt b a = false) := ⟨fun a b hab hba => hanti a b hab hba⟩
  obtain ⟨hp1, hs1⟩ := h1
  obtain ⟨hp2, hs2⟩ := h2
  exact List.eq_of_perm_of_sorted (hp1.symm.trans hp2)
    (List.chain'_iff_pairwise.mp ((isSortedB_iff_chain' lt out1).mp hs1))
    (List.chain'_iff_pairwise.mp ((isSortedB_iff_chain' lt out2).mp hs2))

theorem lexSort_unique (descending : Bool) (lines out1 out2 : List Str)
    (h1 : sortSpec (lexCmp descending) lines out1)
    (h2 : sortSpec (lexCmp descending) lines out2) : out1 = out2 := by
  cases descending with
  | false =>
    exact sortSpec_unique_of_antisymm (lexCmp false)
      (fun a b c hab hbc => strLt_le_trans a b c hab hbc)
      (fun a b hab hba => (strLt_antisymm b a hab hba).symm) lines out1 out2 h1 h2
  | true =>
    exact sortSpec_unique_of_antisymm (lexCmp true)
      (fun a b c hab hbc => strLt_le_trans c b a hbc hab)
      (fun a b hab hba => strLt_antisymm a b hab hba) lines out1 out2 h1 h2

theorem lexSort_reverse (lines out1 out2 : List Str)
    (h1 : sortSpec (lexCmp false) lines out1)
    (h2 : sortSpec (lexCmp true) lines out2) : out2 = out1.reverse := by
  have hrevSpec : sortSpec (lexCmp false) lines out2.reverse := by
    obtain ⟨hperm, hsort⟩ := h2
    refine ⟨hperm.trans (List.reverse_perm out2).symm, ?_⟩
    rw [isSortedB_iff_chain', List.chain'_reverse]
    have hch := (isSortedB_iff_chain' (lexCmp true) out2).mp hsort
    exact List.Chain'.imp (fun a b h => h) hch
  have := lexSort_unique false lines out1 out2.reverse h1 hrevSpec
  rw [this, List.reverse_reverse]

/-! ### Agreement of the two decimal grammars away from separators -/

theorem takeWhile_congr_mem {α : Type} (p q : α → Bool) :
    ∀ l : List α, (∀ c ∈ l, p c = q c) → l.takeWhile p = l.takeWhile q
  | [], _ => rfl
  | a :: t, h => by
    have ha := h a (List.mem_cons_self a t)
    by_cases hp : p a
    · rw [List.takeWhile_cons_of_pos hp, List.takeWhile_cons_of_pos (ha ▸ hp),
        takeWhile_congr_mem p q t (fun c hc => h c (List.mem_cons_of_mem a hc))]
    · rw [List.takeWhile_cons_of_neg hp, List.takeWhile_cons_of_neg (ha ▸ hp)]

theorem comma_dot_admissible_agree (c : Char) (hc : c ≠ ',') (hd : c ≠ '.') :
    decide (c ∈ variantAdmissibleChars SortVariant.decimalComma) =
      decide (c ∈ variantAdmissibleChars SortVariant.decimalDot) := by
  rw [decide_eq_decide]
  have h1 : variantAdmissibleChars SortVariant.decimalComma =
      [' ', '\t', '\r', '\n', '0', '1', '2', '3', '4', '5', '6', '7', '8', '9', ',', '-'] :=
    rfl
  have h2 : variantAdmissibleChars SortVariant.decimalDot =
      [' ', '\t', '\r', '\n', '0', '1', '2', '3', '4', '5', '6', '7', '8', '9', '.', '-'] :=
    rfl
  rw [h1, h2]
  simp only [List.mem_cons, List.not_mem_nil, or_false]
  constructor
  · rintro (h | h | h | h | h | h | h | h | h | h | h | h | h | h | h | h) <;>
      first
      | exact absurd h hc
      | tauto
  · rintro (h | h | h | h | h | h | h | h | h | h | h | h | h | h | h | h) <;>
      first
      | exact absurd h hd
      | tauto

theorem stringReplaceChar_id (s : Str) (a b : Char) (h : a ∉ s) :
    stringReplaceChar s a b = s := by
  unfold stringReplaceChar
  have hcong : ∀ c ∈ s, (if c = a then b else c) = c := by
    intro c hc
    refine if_neg ?_
    intro he
    subst he
    exact h hc
  calc s.map (fun c => if c = a then b else c) = s.map id := List.map_congr_left hcong
    _ = s := List.map_id s

theorem prepare_comma_dot_agree (s : Str) (hc : ',' ∉ s) (hd : '.' ∉ s) :
    variantPrepare SortVariant.decimalComma s = variantPrepare SortVariant.decimalDot s := by
  show stringReplaceChar
      (stringTakeWhileAdmissable s (variantAdmissibleChars SortVariant.decimalComma)) ',' '.' =
    stringTakeWhileAdmissable s (variantAdmissibleChars SortVariant.decimalDot)
  have htake : stringTakeWhileAdmissable s (variantAdmissibleChars SortVariant.decimalComma) =
      stringTakeWhileAdmissable s (variantAdmissibleChars SortVariant.decimalDot) := by
    unfold stringTakeWhileAdmissable
    refine takeWhile_congr_mem _ _ s (fun c hcm => comma_dot_admissible_agree c ?_ ?_)
    · intro he
      subst he
      exact hc hcm
    · intro he
      subst he
      exact hd hcm
  rw [htake]
  apply stringReplaceChar_id
  intro hmem
  exact hc ((List.takeWhile_sublist _).subset hmem)

theorem classify_congr_prepare {K : Type} (p1 p2 : Str → Str) (conv : Str → Option K)
    (ls : List Str) (hagree : ∀ s ∈ ls, p1 s = p2 s) (n : Nat) :
    classifyLinesAux p1 conv n ls = classifyLinesAux p2 conv n ls := by
  induction ls generalizing n with
  | nil => rfl
  | cons s rest ih =>
    have hs := hagree s (List.mem_cons_self s rest)
    have hrec := ih (fun t ht => hagree t (List.mem_cons_of_mem s ht)) (n + 1)
    simp only [classifyLinesAux, hs, hrec]

/-! ### Small-input behaviour -/

theorem sortSpec_nil_iff {α : Type} (lt : α → α → Bool) (out : List α) :
    sortSpec lt [] out ↔ out = [] := by
  constructor
  · rintro ⟨hp, _⟩
    exact (List.Perm.nil_eq hp).symm
  · rintro rfl
    exact ⟨List.Perm.refl _, rfl⟩

theorem sortSpec_singleton_iff {α : Type} (lt : α → α → Bool) (a : α) (out : List α) :
    sortSpec lt [a] out ↔ out = [a] := by
  constructor
  · rintro ⟨hp, _⟩
    exact List.perm_singleton.mp hp.symm
  · rintro rfl
    exact ⟨List.Perm.refl _, rfl⟩

theorem numericSortRel_nil {K : Type} [LinearOrder K] (prepare : Str → Str)
    (conv : Str → Option K) (descending : Bool) (r : SortResult) :
    numericSortRel prepare conv descending [] r ↔ r = SortResult.success [] := by
  have hcl : numericClassify prepare conv [] =
      Except.ok (([] : List (Nat × K)), ([] : List Str)) := rfl
  constructor
  · rintro (⟨i, hcl2, hr⟩ | ⟨ps, es, sp, hcl2, hs, hr⟩)
    · rw [hcl] at hcl2
      exact Except.noConfusion hcl2
    · rw [hcl] at hcl2
      injection hcl2 with hpe
      injection hpe with hps hes
      subst hps hes
      have hsp : sp = [] := (List.Perm.nil_eq hs.1).symm
      subst hsp
      rw [hr]
      cases descending <;> rfl
  · rintro rfl
    exact Or.inr ⟨[], [], [], hcl, ⟨List.Perm.refl _, rfl⟩, by cases descending <;> rfl⟩

theorem numericSortRel_single_ok {K : Type} [LinearOrder K] (prepare : Str → Str)
    (conv : Str → Option K) (descending : Bool) (s : Str) (r : SortResult)
    (hfail : lineFails prepare conv s = false) :
    numericSortRel prepare conv descending [s] r ↔ r = SortResult.success [s] := by
  by_cases hemp : considerStringEmpty (prepare s)
  · have hcl : numericClassify prepare conv [s] =
        Except.ok (([] : List (Nat × K)), [s]) := by
      simp [numericClassify, classifyLinesAux, hemp]
    constructor
    · rintro (⟨i, hcl2, hr⟩ | ⟨ps, es, sp, hcl2, hs, hr⟩)
      · rw [hcl] at hcl2
        exact Except.noConfusion hcl2
      · rw [hcl] at hcl2
        injection hcl2 with hpe
        injection hpe with hps hes
        subst hps hes
        have hsp : sp = [] := (List.Perm.nil_eq hs.1).symm
        subst hsp
        rw [hr]
        cases descending <;> rfl
    · rintro rfl
      exact Or.inr ⟨[], [s], [], hcl, ⟨List.Perm.refl _, rfl⟩, by cases descending <;> rfl⟩
  · obtain ⟨k, hk⟩ : ∃ k, conv (prepare s) = some k := by
      unfold lineFails at hfail
      cases hc : conv (prepare s) with
      | none =>
        rw [hc] at hfail
        simp [hemp] at hfail
      | some k => exact ⟨k, rfl⟩
    have hcl : numericClassify prepare conv [s] =
        Except.ok ([((0 : Nat), k)], ([] : List Str)) := by
      simp [numericClassify, classifyLinesAux, hemp, hk]
    constructor
    · rintro (⟨i, hcl2, hr⟩ | ⟨ps, es, sp, hcl2, hs, hr⟩)
      · rw [hcl] at hcl2
        exact Except.noConfusion hcl2
      · rw [hcl] at hcl2
        injection hcl2 with hpe
        injection hpe with hps hes
        subst hps hes
        have hsp : sp = [(0, k)] := List.perm_singleton.mp hs.1.symm
        subst hsp
        rw [hr]
        cases descending <;> rfl
    · rintro rfl
      exact Or.inr ⟨[(0, k)], [], [(0, k)], hcl, ⟨List.Perm.refl _, rfl⟩,
        by cases descending <;> rfl⟩

theorem numericSortRel_single_fail {K : Type} [LinearOrder K] (prepare : Str → Str)
    (conv : Str → Option K) (descending : Bool) (s : Str) (r : SortResult)
    (hfail : lineFails prepare conv s = true) :
    numericSortRel prepare conv descending [s] r ↔ r = SortResult.failure 0 := by
  have hemp : considerStringEmpty (prepare s) = false := by
    unfold lineFails at hfail
    cases he : considerStringEmpty (prepare s) with
    | false => rfl
    | true =>
      rw [he] at hfail
      simp at hfail
  have hconv : conv (prepare s) = none := by
    unfold lineFails at hfail
    cases hc : conv (prepare s) with
    | none => rfl
    | some k =>
      rw [hc] at hfail
      simp [hemp] at hfail
  have hcl : numericClassify prepare conv [s] = Except.error 0 := by
    simp [numericClassify, classifyLinesAux, hemp, hconv]
  constructor
  · rintro (⟨i, hcl2, hr⟩ | ⟨ps, es, sp, hcl2, hs, hr⟩)
    · rw [hcl] at hcl2
      injection hcl2 with hi
      rw [hr, ← hi]
    · rw [hcl] at hcl2
      exact Except.noConfusion hcl2
  · rintro rfl
    exact Or.inl ⟨0, hcl, rfl⟩

theorem numericSortRel_all_empty {K : Type} [LinearOrder K] (prepare : Str → Str)
    (conv : Str → Option K) (descending : Bool) (lines : List Str) (r : SortResult)
    (hall : ∀ s ∈ lines, considerStringEmpty (prepare s) = true) :
    numericSortRel prepare conv descending lines r ↔ r = SortResult.success lines := by
  have hcl : numericClassify prepare conv lines =
      Except.ok (([] : List (Nat × K)), lines) :=
    classify_all_empty prepare conv 0 lines hall
  constructor
  · rintro (⟨i, hcl2, hr⟩ | ⟨ps, es, sp, hcl2, hs, hr⟩)
    · rw [hcl] at hcl2
      exact Except.noConfusion hcl2
    · rw [hcl] at hcl2
      injection hcl2 with hpe
      injection hpe with hps hes
      subst hps hes
      have hsp : sp = [] := (List.Perm.nil_eq hs.1).symm
      subst hsp
      rw [hr]
      cases descending <;> simp [assemble]
  · rintro rfl
    refine Or.inr ⟨[], lines, [], hcl, ⟨List.Perm.refl _, rfl⟩, ?_⟩
    cases descending <;> simp [assemble]

/-! ### The claims -/

/-- Claim C1: for every input sequence of lines, every strategy variant
(lexicographic, integer, decimal-comma, decimal-dot) and both directions,
every output of a successful sort is a permutation of the input — same
length and same multiset of lines, with no line dropped or duplicated. -/
theorem claim1_sort_is_permutation (v : SortVariant) (descending : Bool)
    (lines out : List Str)
    (h : sortRel v descending lines (SortResult.success out)) :
    List.Perm out lines ∧ out.length = lines.length := by
  have hperm : List.Perm out lines := by
    cases v with
    | lexicographic =>
      obtain ⟨out2, hr, hperm, _⟩ := h
      injection hr with hr2
      subst hr2
      exact hperm.symm
    | integer => exact numericSortRel_ok_perm _ _ _ _ _ h
    | decimalComma => exact numericSortRel_ok_perm _ _ _ _ _ h
    | decimalDot => exact numericSortRel_ok_perm _ _ _ _ _ h
  exact ⟨hperm, hperm.length_eq⟩

/-- Witness for C1: a concrete integer-variant ascending call. -/
theorem claim1_sort_is_permutation_witness :
    sortRel SortVariant.integer false ["10".data, "2".data, [], "-5".data]
      (SortResult.success [[], "-5".data, "2".data, "10".data]) ∧
    List.Perm [[], "-5".data, "2".data, "10".data]
      ["10".data, "2".data, [], "-5".data] := by
  have hrel : sortRel SortVariant.integer false ["10".data, "2".data, [], "-5".data]
      (SortResult.success [[], "-5".data, "2".data, "10".data]) :=
    Or.inr ⟨[(0, 10), (1, 2), (3, -5)], [[]], [(3, -5), (1, 2), (0, 10)],
      by decide, ⟨by decide, by decide⟩, rfl⟩
  exact ⟨hrel, (claim1_sort_is_permutation SortVariant.integer false _ _ hrel).1⟩

/-- Claim C2 (code-bug evidence): on the ascending integer sort of
["5 ", "5"] both lines convert to the same key 5, and the `std::sort`
contract admits the output ["5", "5 "], in which the equal-key lines have
swapped their original relative order.  The source uses `std::sort`, whose
order among equivalent elements is unspecified, so the stability that both
the spec and the claim require is not guaranteed by the code. -/
theorem claim2_tie_order_not_guaranteed :
    stollModel (variantPrepare SortVariant.integer "5 ".data) = some 5 ∧
    stollModel (variantPrepare SortVariant.integer "5".data) = some 5 ∧
    sortRel SortVariant.integer false ["5 ".data, "5".data]
      (SortResult.success ["5".data, "5 ".data]) ∧
    ["5".data, "5 ".data] ≠ ["5 ".data, "5".data] := by
  refine ⟨by decide, by decide, ?_, by decide⟩
  exact Or.inr ⟨[(0, 5), (1, 5)], [], [(1, 5), (0, 5)],
    by decide, ⟨by decide, by decide⟩, rfl⟩

/-- Claim C9: in every numeric variant, a line whose admissible leading run
is empty (for instance because its first character is inadmissible, e.g. a
letter) or contains only whitespace is classified as an empty line: it is
never converted, it can never be the index of an `UnparseableLine` failure,
and on success it is placed among the empties. -/
theorem claim9_empty_lines_never_fail :
    (∀ (v : SortVariant) (c : Char) (rest : Str), v ≠ SortVariant.lexicographic →
      c ∉ variantAdmissibleChars v →
      considerStringEmpty (variantPrepare v (c :: rest)) = true) ∧
    (∀ (v : SortVariant) (descending : Bool) (lines : List Str) (i : Nat),
      v ≠ SortVariant.lexicographic → i < lines.length →
      considerStringEmpty (variantPrepare v (lines.getD i [])) = true →
      (∀ j, sortRel v descending lines (SortResult.failure j) → j ≠ i) ∧
      (∀ ps es, variantClassify v lines = Except.ok (ps, es) →
        (∀ k, (i, k) ∉ ps) ∧ lines.getD i [] ∈ es)) := by
  constructor
  · intro v c rest hv hc
    have hdec : decide (c ∈ variantAdmissibleChars v) = false := by
      rw [decide_eq_false_iff_not]
      exact hc
    cases v with
    | lexicographic => exact absurd rfl hv
    | integer =>
      show considerStringEmpty
        (stringTakeWhileAdmissable (c :: rest) (variantAdmissibleChars SortVariant.integer)) = true
      unfold stringTakeWhileAdmissable
      rw [List.takeWhile_cons_of_neg (by rw [hdec]; exact Bool.false_ne_true)]
      rfl
    | decimalComma =>
      show considerStringEmpty (stringReplaceChar
        (stringTakeWhileAdmissable (c :: rest)
          (variantAdmissibleChars SortVariant.decimalComma)) ',' '.') = true
      unfold stringTakeWhileAdmissable
      rw [List.takeWhile_cons_of_neg (by rw [hdec]; exact Bool.false_ne_true)]
      rfl
    | decimalDot =>
      show considerStringEmpty
        (stringTakeWhileAdmissable (c :: rest) (variantAdmissibleChars SortVariant.decimalDot)) = true
      unfold stringTakeWhileAdmissable
      rw [List.takeWhile_cons_of_neg (by rw [hdec]; exact Bool.false_ne_true)]
      rfl
  · intro v descending lines i hv hi hemp
    have hmem : lines.getD i [] ∈ lines := by
      rw [List.getD_eq_getElem lines [] hi]
      exact List.getElem_mem hi
    have hconvNone : variantConv v (variantPrepare v (lines.getD i [])) = none := by
      cases v with
      | lexicographic => rfl
      | integer => exact stollModel_of_empty _ hemp
      | decimalComma => exact stodModel_of_empty _ hemp
      | decimalDot => exact stodModel_of_empty _ hemp
    have hfails : lineFails (variantPrepare v) (variantConv v) (lines.getD i []) = false := by
      unfold lineFails
      rw [hemp]
      rfl
    constructor
    · intro j hrel hji
      subst hji
      have hcl : variantClassify v lines = Except.error j := by
        cases v with
        | lexicographic => exact absurd rfl hv
        | integer => exact (numericSortRel_failure_iff _ _ _ _ _).mp hrel
        | decimalComma => exact (numericSortRel_failure_iff _ _ _ _ _).mp hrel
        | decimalDot => exact (numericSortRel_failure_iff _ _ _ _ _).mp hrel
      obtain ⟨m, hm, hjm, hf, _⟩ := classify_error_spec (variantPrepare v) (variantConv v)
        0 lines j hcl
      have : j = m := by omega
      subst this
      rw [hfails] at hf
      exact Bool.noConfusion hf
    · intro ps es hcl
      constructor
      · intro k hk
        have := classify_ok_keys (variantPrepare v) (variantConv v) [] lines ps es hcl
        have hkey := this (i, k) hk
        simp only [List.nil_append] at hkey
        rw [hconvNone] at hkey
        exact Option.noConfusion hkey
      · have hes := classify_ok_empties (variantPrepare v) (variantConv v) 0 lines ps es hcl
        rw [hes]
        exact List.mem_filter.mpr ⟨hmem, hemp⟩

/-- Witness for C9: the integer variant on ["abc", "5"]; "abc" starts with
an inadmissible letter, is empty-classified, is never an error index and
sits among the empties. -/
theorem claim9_empty_lines_never_fail_witness :
    considerStringEmpty (variantPrepare SortVariant.integer "abc".data) = true ∧
    (∀ j, sortRel SortVariant.integer false ["abc".data, "5".data]
      (SortResult.failure j) → j ≠ 0) := by
  refine ⟨?_, ?_⟩
  · exact (claim9_empty_lines_never_fail).1 SortVariant.integer 'a' "bc".data
      (by decide) (by decide)
  · intro j hrel
    exact ((claim9_empty_lines_never_fail).2 SortVariant.integer false
      ["abc".data, "5".data] 0 (by decide) (by decide) (by decide)).1 j hrel

/-- Claim C10: on inputs in which no line contains a comma or a period, the
decimal-comma and decimal-dot variants have identical observable behaviour:
the same outcomes (successful outputs as well as failure indices) are
admitted by both. -/
theorem claim10_comma_dot_equivalent (descending : Bool) (lines : List Str)
    (r : SortResult) (hsep : ∀ s ∈ lines, ',' ∉ s ∧ '.' ∉ s) :
    sortRel SortVariant.decimalComma descending lines r ↔
      sortRel SortVariant.decimalDot descending lines r := by
  have hagree : ∀ s ∈ lines, variantPrepare SortVariant.decimalComma s =
      variantPrepare SortVariant.decimalDot s :=
    fun s hs => prepare_comma_dot_agree s (hsep s hs).1 (hsep s hs).2
  have hcl : numericClassify (variantPrepare SortVariant.decimalComma) stodModel lines =
      numericClassify (variantPrepare SortVariant.decimalDot) stodModel lines :=
    classify_congr_prepare _ _ stodModel lines hagree 0
  show numericSortRel (variantPrepare SortVariant.decimalComma) stodModel
      descending lines r ↔
    numericSortRel (variantPrepare SortVariant.decimalDot) stodModel descending lines r
  unfold numericSortRel
  rw [hcl]

/-- Witness for C10: a comma-free and period-free input where both decimal
variants admit the same ascending output. -/
theorem claim10_comma_dot_equivalent_witness :
    (∀ s ∈ [['1', '2'], ['3']], ',' ∉ s ∧ '.' ∉ s) ∧
    (sortRel SortVariant.decimalComma false [['1', '2'], ['3']]
        (SortResult.success [['3'], ['1', '2']]) ↔
      sortRel SortVariant.decimalDot false [['1', '2'], ['3']]
        (SortResult.success [['3'], ['1', '2']])) :=
  ⟨by decide, claim10_comma_dot_equivalent false [['1', '2'], ['3']]
    (SortResult.success [['3'], ['1', '2']]) (by decide)⟩

/-- Claim C3: for every numeric-variant call in which some line is a
candidate (non-empty after stripping) whose conversion fails, the whole
sort call fails, signalling the zero-based original index of the first such
line, and no reordered output is produced — the caller keeps the original
sequence. -/
theorem claim3_conversion_failure_aborts (v : SortVariant) (descending : Bool)
    (lines : List Str) (hv : v ≠ SortVariant.lexicographic)
    (hex : ∃ i, i < lines.length ∧ variantLineFails v (lines.getD i []) = true) :
    ∃ i, i < lines.length ∧ variantLineFails v (lines.getD i []) = true ∧
      (∀ j < i, variantLineFails v (lines.getD j []) = false) ∧
      sortRel v descending lines (SortResult.failure i) ∧
      ∀ out, ¬ sortRel v descending lines (SortResult.success out) := by
  cases v with
  | lexicographic => exact absurd rfl hv
  | integer => exact numericSortRel_fail_spec _ _ descending lines hex
  | decimalComma => exact numericSortRel_fail_spec _ _ descending lines hex
  | decimalDot => exact numericSortRel_fail_spec _ _ descending lines hex

/-- Witness for C3: the integer variant on ["5", "-"], whose second line is
an unconvertible candidate. -/
theorem claim3_conversion_failure_aborts_witness :
    (SortVariant.integer ≠ SortVariant.lexicographic) ∧
    (∃ i, i < (["5".data, "-".data] : List Str).length ∧
      variantLineFails SortVariant.integer (["5".data, "-".data].getD i []) = true) ∧
    (∃ i, i < (["5".data, "-".data] : List Str).length ∧
      variantLineFails SortVariant.integer (["5".data, "-".data].getD i []) = true ∧
      (∀ j < i, variantLineFails SortVariant.integer
        (["5".data, "-".data].getD j []) = false) ∧
      sortRel SortVariant.integer false ["5".data, "-".data] (SortResult.failure i) ∧
      ∀ out, ¬ sortRel SortVariant.integer false ["5".data, "-".data]
        (SortResult.success out)) :=
  ⟨by decide, ⟨1, by decide, by decide⟩,
    claim3_conversion_failure_aborts SortVariant.integer false ["5".data, "-".data]
      (by decide) ⟨1, by decide, by decide⟩⟩

/-- Claim C4: every successful numeric-variant sort call produces the block
structure empties ++ sorted-candidates when ascending and
sorted-candidates ++ empties when descending, where the empties block is
exactly the empty-classified lines in their original relative order and the
candidate block is a permutation of the candidate lines whose keys are
non-decreasing (ascending) resp. non-increasing (descending). -/
theorem claim4_success_block_structure (v : SortVariant) (descending : Bool)
    (lines out : List Str) (hv : v ≠ SortVariant.lexicographic)
    (h : sortRel v descending lines (SortResult.success out)) :
    ∃ cand,
      (out = if descending then cand ++ variantEmpties v lines
        else variantEmpties v lines ++ cand) ∧
      List.Perm cand (variantCandidates v lines) ∧
      List.Chain' (fun a b => variantCandLe v descending a b = true) cand := by
  cases v with
  | lexicographic => exact absurd rfl hv
  | integer => exact numericSortRel_ok_structure _ _ _ _ _ h
  | decimalComma => exact numericSortRel_ok_structure _ _ _ _ _ h
  | decimalDot => exact numericSortRel_ok_structure _ _ _ _ _ h

/-- Witness for C4: a concrete ascending integer call with one empty line
and two candidates. -/
theorem claim4_success_block_structure_witness :
    sortRel SortVariant.integer false ["2".data, [], "1".data]
      (SortResult.success [[], "1".data, "2".data]) ∧
    ∃ cand,
      ([[], "1".data, "2".data] = if false then cand ++
          variantEmpties SortVariant.integer ["2".data, [], "1".data]
        else variantEmpties SortVariant.integer ["2".data, [], "1".data] ++ cand) ∧
      List.Perm cand (variantCandidates SortVariant.integer ["2".data, [], "1".data]) ∧
      List.Chain' (fun a b => variantCandLe SortVariant.integer false a b = true) cand := by
  have hrel : sortRel SortVariant.integer false ["2".data, [], "1".data]
      (SortResult.success [[], "1".data, "2".data]) :=
    Or.inr ⟨[(0, 2), (2, 1)], [[]], [(2, 1), (0, 2)],
      by decide, ⟨by decide, by decide⟩, rfl⟩
  exact ⟨hrel, claim4_success_block_structure SortVariant.integer false _ _
    (by decide) hrel⟩

/-- Claim C7 counterexample: the single-line input ["-"] makes the integer
variant fail with index 0 ("-" strips to "-", which is not whitespace-only,
and `std::stoll` rejects it), so a single-line input is not always returned
unchanged and can produce a failure, contrary to the claim. -/
theorem claim7_counterexample :
    sortRel SortVariant.integer false ["-".data] (SortResult.failure 0) ∧
    ¬ sortRel SortVariant.integer false ["-".data]
      (SortResult.success ["-".data]) := by
  have hcl : numericClassify (variantPrepare SortVariant.integer)
      (variantConv SortVariant.integer) ["-".data] = Except.error 0 := by decide
  constructor
  · exact Or.inl ⟨0, hcl, rfl⟩
  · rintro (⟨i, hcl2, hr⟩ | ⟨ps, es, sp, hcl2, hs, hr⟩)
    · exact SortResult.noConfusion hr
    · rw [hcl] at hcl2
      exact Except.noConfusion hcl2

/-- Claim C7 as amended: the empty input yields itself for every variant and
direction; a single-line input yields itself for the lexicographic variant
always, and for a numeric variant exactly when its line is empty-classified
or convertible — a single non-empty unconvertible line instead fails with
index 0; inputs consisting only of empty-classified lines always yield
themselves. -/
theorem claim7_amended_small_inputs :
    (∀ (v : SortVariant) (descending : Bool) (r : SortResult),
      sortRel v descending [] r ↔ r = SortResult.success []) ∧
    (∀ (descending : Bool) (s : Str) (r : SortResult),
      sortRel SortVariant.lexicographic descending [s] r ↔
        r = SortResult.success [s]) ∧
    (∀ (v : SortVariant) (descending : Bool) (s : Str) (r : SortResult),
      v ≠ SortVariant.lexicographic → variantLineFails v s = false →
      (sortRel v descending [s] r ↔ r = SortResult.success [s])) ∧
    (∀ (v : SortVariant) (descending : Bool) (s : Str) (r : SortResult),
      v ≠ SortVariant.lexicographic → variantLineFails v s = true →
      (sortRel v descending [s] r ↔ r = SortResult.failure 0)) ∧
    (∀ (v : SortVariant) (descending : Bool) (lines : List Str) (r : SortResult),
      v ≠ SortVariant.lexicographic →
      (∀ s ∈ lines, considerStringEmpty (variantPrepare v s) = true) →
      (sortRel v descending lines r ↔ r = SortResult.success lines)) := by
  refine ⟨?_, ?_, ?_, ?_, ?_⟩
  · intro v descending r
    cases v with
    | lexicographic =>
      show (∃ out, r = SortResult.success out ∧ sortSpec (lexCmp descending) [] out) ↔ _
      constructor
      · rintro ⟨out, hr, hs⟩
        rw [(sortSpec_nil_iff _ out).mp hs] at hr
        exact hr
      · rintro rfl
        exact ⟨[], rfl, (sortSpec_nil_iff _ []).mpr rfl⟩
    | integer => exact numericSortRel_nil _ _ descending r
    | decimalComma => exact numericSortRel_nil _ _ descending r
    | decimalDot => exact numericSortRel_nil _ _ descending r
  · intro descending s r
    show (∃ out, r = SortResult.success out ∧ sortSpec (lexCmp descending) [s] out) ↔ _
    constructor
    · rintro ⟨out, hr, hs⟩
      rw [(sortSpec_singleton_iff _ s out).mp hs] at hr
      exact hr
    · rintro rfl
      exact ⟨[s], rfl, (sortSpec_singleton_iff _ s [s]).mpr rfl⟩
  · intro v descending s r hv hfail
    cases v with
    | lexicographic => exact absurd rfl hv
    | integer => exact numericSortRel_single_ok _ _ descending s r hfail
    | decimalComma => exact numericSortRel_single_ok _ _ descending s r hfail
    | decimalDot => exact numericSortRel_single_ok _ _ descending s r hfail
  · intro v descending s r hv hfail
    cases v with
    | lexicographic => exact absurd rfl hv
    | integer => exact numericSortRel_single_fail _ _ descending s r hfail
    | decimalComma => exact numericSortRel_single_fail _ _ descending s r hfail
    | decimalDot => exact numericSortRel_single_fail _ _ descending s r hfail
  · intro v descending lines r hv hall
    cases v with
    | lexicographic => exact absurd rfl hv
    | integer => exact numericSortRel_all_empty _ _ descending lines r hall
    | decimalComma => exact numericSortRel_all_empty _ _ descending lines r hall
    | decimalDot => exact numericSortRel_all_empty _ _ descending lines r hall

/-- Witness for the amended C7: a convertible single line returns itself,
and an all-empty two-line input returns itself. -/
theorem claim7_amended_small_inputs_witness :
    (variantLineFails SortVariant.integer "7".data = false) ∧
    sortRel SortVariant.integer false ["7".data] (SortResult.success ["7".data]) ∧
    (∀ s ∈ [[' '], []], considerStringEmpty
      (variantPrepare SortVariant.decimalDot s) = true) ∧
    sortRel SortVariant.decimalDot true [[' '], []]
      (SortResult.success [[' '], []]) := by
  refine ⟨by decide, ?_, by decide, ?_⟩
  · exact (claim7_amended_small_inputs.2.2.1 SortVariant.integer false "7".data
      (SortResult.success ["7".data]) (by decide) (by decide)).mpr rfl
  · exact (claim7_amended_small_inputs.2.2.2.2 SortVariant.decimalDot true [[' '], []]
      (SortResult.success [[' '], []]) (by decide) (by decide)).mpr rfl

/-- Claim C6 counterexample: on ["3,5", "1,25", "abc"] the ascending
decimal-comma sort does not fail: "abc" strips to the empty string, is
classified an empty line, and the call succeeds with
["abc", "1,25", "3,5"]; the failure UnparseableLine(2) that the claim
expects is not an admitted outcome. -/
theorem claim6_counterexample :
    sortRel SortVariant.decimalComma false ["3,5".data, "1,25".data, "abc".data]
      (SortResult.success ["abc".data, "1,25".data, "3,5".data]) ∧
    ¬ sortRel SortVariant.decimalComma false ["3,5".data, "1,25".data, "abc".data]
      (SortResult.failure 2) := by
  have hcl : numericClassify (variantPrepare SortVariant.decimalComma)
      (variantConv SortVariant.decimalComma) ["3,5".data, "1,25".data, "abc".data]
      = Except.ok ([(0, mkRat 7 2), (1, mkRat 5 4)], ["abc".data]) := by decide
  constructor
  · exact Or.inr ⟨[(0, mkRat 7 2), (1, mkRat 5 4)], ["abc".data],
      [(1, mkRat 5 4), (0, mkRat 7 2)], hcl, ⟨by decide, by decide⟩, rfl⟩
  · rintro (⟨i, hcl2, hr⟩ | ⟨ps, es, sp, hcl2, hs, hr⟩)
    · rw [hcl] at hcl2
      exact Except.noConfusion hcl2
    · exact SortResult.noConfusion hr

/-- Claim C6 as amended: on ["3,5", "1,25", "abc"] the ascending
decimal-comma sort succeeds, its only admitted outcome being
["abc", "1,25", "3,5"] ("abc" strips to empty and joins the empties at the
front); the failure UnparseableLine(2) arises instead when the third line
is a non-empty unconvertible candidate, as in ["3,5", "1,25", "-"], whose
only admitted outcome is that failure, with no output produced. -/
theorem claim6_amended_abc_is_empty :
    (∀ r, sortRel SortVariant.decimalComma false
      ["3,5".data, "1,25".data, "abc".data] r ↔
      r = SortResult.success ["abc".data, "1,25".data, "3,5".data]) ∧
    (∀ r, sortRel SortVariant.decimalComma false
      ["3,5".data, "1,25".data, "-".data] r ↔ r = SortResult.failure 2) := by
  constructor
  · intro r
    have hcl : numericClassify (variantPrepare SortVariant.decimalComma)
        (variantConv SortVariant.decimalComma) ["3,5".data, "1,25".data, "abc".data]
        = Except.ok ([(0, mkRat 7 2), (1, mkRat 5 4)], ["abc".data]) := by decide
    have hok : sortRel SortVariant.decimalComma false
        ["3,5".data, "1,25".data, "abc".data]
        (SortResult.success ["abc".data, "1,25".data, "3,5".data]) :=
      Or.inr ⟨[(0, mkRat 7 2), (1, mkRat 5 4)], ["abc".data],
        [(1, mkRat 5 4), (0, mkRat 7 2)], hcl, ⟨by decide, by decide⟩, rfl⟩
    constructor
    · intro h
      refine numericSortRel_unique _ _ false _ ?_ r _ h hok
      intro ps es hcl2
      rw [hcl] at hcl2
      injection hcl2 with hpe
      injection hpe with hps hes
      subst hps
      decide
    · rintro rfl
      exact hok
  · intro r
    have hcl2 : numericClassify (variantPrepare SortVariant.decimalComma)
        (variantConv SortVariant.decimalComma) ["3,5".data, "1,25".data, "-".data]
        = Except.error 2 := by decide
    constructor
    · rintro (⟨i, hcli, hr⟩ | ⟨ps, es, sp, hcli, _, hr⟩)
      · rw [hcl2] at hcli
        injection hcli with hi
        rw [hr, ← hi]
      · rw [hcl2] at hcli
        exact Except.noConfusion hcli
    · rintro rfl
      exact Or.inl ⟨2, hcl2, rfl⟩


theorem parseLeadingInt_some_iff (s : Str) (v : Int) :
    parseLeadingInt s = some v ↔ LeadingIntNumeral s v := by
  have hw : ∀ x ∈ s.takeWhile (fun c => decide (c ∈ wsChars)), x ∈ wsChars := fun x hx =>
    of_decide_eq_true (@List.mem_takeWhile_imp Char (fun c => decide (c ∈ wsChars)) s x hx)
  have hsplit := List.takeWhile_append_dropWhile (fun c => decide (c ∈ wsChars)) s
  have hdigits : ∀ (u : Str) (d : Char) (ds' : List Char),
      u.takeWhile Char.isDigit = d :: ds' →
      (∀ x ∈ d :: ds', x.isDigit = true) ∧
      (∀ x, (u.dropWhile Char.isDigit).head? = some x → x.isDigit = false) ∧
      u = (d :: ds') ++ u.dropWhile Char.isDigit := by
    intro u d ds' hu
    refine ⟨fun x hx => List.mem_takeWhile_imp (hu ▸ hx), 
      fun x hx => head_dropWhile_false Char.isDigit u x hx, ?_⟩
    rw [← hu]
    exact (List.takeWhile_append_dropWhile Char.isDigit u).symm
  constructor
  · intro h
    simp only [parseLeadingInt] at h
    cases ht : s.dropWhile (fun c => decide (c ∈ wsChars)) with
    | nil =>
      rw [ht] at h
      simp at h
    | cons c t' =>
      rw [ht] at h
      rw [ht] at hsplit
      by_cases hm : c = '-'
      · subst hm
        simp [-List.takeWhile_eq_nil_iff] at h
        cases hds : t'.takeWhile Char.isDigit with
        | nil => simp [hds] at h
        | cons d ds' =>
          simp [hds] at h
          obtain ⟨hd1, hd2, hd3⟩ := hdigits t' d ds' hds
          set r0 := t'.dropWhile Char.isDigit with hr0
          refine ⟨s.takeWhile (fun c => decide (c ∈ wsChars)), ['-'], d :: ds',
            r0, hw, Or.inr (Or.inl rfl),
            List.cons_ne_nil d ds', hd1, hd2, ?_, ?_⟩
          · conv_lhs => rw [← hsplit]
            rw [hd3]
            simp
          · rw [← h]
            simp
      · by_cases hp : c = '+'
        · subst hp
          simp [-List.takeWhile_eq_nil_iff] at h
          cases hds : t'.takeWhile Char.isDigit with
          | nil => simp [hds] at h
          | cons d ds' =>
            simp [hds] at h
            obtain ⟨hd1, hd2, hd3⟩ := hdigits t' d ds' hds
            set r0 := t'.dropWhile Char.isDigit with hr0
            refine ⟨s.takeWhile (fun c => decide (c ∈ wsChars)), ['+'], d :: ds',
              r0, hw, Or.inr (Or.inr rfl),
              List.cons_ne_nil d ds', hd1, hd2, ?_, ?_⟩
            · conv_lhs => rw [← hsplit]
              rw [hd3]
              simp
            · rw [← h]
              simp
        · simp [hm, hp, -List.takeWhile_eq_nil_iff] at h
          cases hds : (c :: t').takeWhile Char.isDigit with
          | nil => simp [hds] at h
          | cons d ds' =>
            simp [hds] at h
            obtain ⟨hd1, hd2, hd3⟩ := hdigits (c :: t') d ds' hds
            set r0 := (c :: t').dropWhile Char.isDigit with hr0
            refine ⟨s.takeWhile (fun c => decide (c ∈ wsChars)), [], d :: ds',
              r0, hw, Or.inl rfl,
              List.cons_ne_nil d ds', hd1, hd2, ?_, ?_⟩
            · conv_lhs => rw [← hsplit]
              rw [hd3]
              simp
            · rw [← h]
              simp
  · rintro ⟨w, sgn, ds, r, hwall, hsgn, hds, hdig, hr, hs, hv⟩
    subst hs
    have hdsr_take : (ds ++ r).takeWhile Char.isDigit = ds :=
      takeWhile_append_of_all Char.isDigit ds r hdig hr
    have hhead : ∀ c : Char, (sgn ++ ds ++ r).head? = some c →
        decide (c ∈ wsChars) = false := by
      rcases hsgn with h0 | h0 | h0 <;> subst h0
      · intro c hc
        cases ds with
        | nil => exact absurd rfl hds
        | cons d ds' =>
          simp at hc
          subst hc
          exact digit_not_ws _ (hdig _ (List.mem_cons_self _ _))
      · intro c hc
        simp at hc
        subst hc
        decide
      · intro c hc
        simp at hc
        subst hc
        decide
    have hdrop : (w ++ sgn ++ ds ++ r).dropWhile (fun c => decide (c ∈ wsChars)) =
        sgn ++ ds ++ r := by
      have hmain := dropWhile_append_of_all (fun c => decide (c ∈ wsChars)) w
        (sgn ++ ds ++ r) (fun c hc => decide_eq_true (hwall c hc)) hhead
      rw [show w ++ sgn ++ ds ++ r = w ++ (sgn ++ ds ++ r) by simp]
      exact hmain
    rcases hsgn with h0 | h0 | h0 <;> subst h0
    · obtain ⟨d, ds', rfl⟩ : ∃ d ds', ds = d :: ds' := by
        cases ds with
        | nil => exact absurd rfl hds
        | cons d ds' => exact ⟨d, ds', rfl⟩
      have hdm : d ≠ '-' := by
        intro he
        have hd := hdig d (List.mem_cons_self d ds')
        rw [he] at hd
        exact absurd hd (by decide)
      have hdp : d ≠ '+' := by
        intro he
        have hd := hdig d (List.mem_cons_self d ds')
        rw [he] at hd
        exact absurd hd (by decide)
      simp only [List.cons_append] at hdsr_take
      simp only [parseLeadingInt, hdrop]
      simp [hdm, hdp, -List.takeWhile_eq_nil_iff]
      rw [hdsr_take]
      simp [hv]
    · simp only [parseLeadingInt, hdrop]
      simp [-List.takeWhile_eq_nil_iff]
      rw [hdsr_take]
      simp [hds, hv]
    · simp only [parseLeadingInt, hdrop]
      simp [-List.takeWhile_eq_nil_iff]
      rw [hdsr_take]
      simp [hds, hv]

theorem stollModel_some_iff (s : Str) (v : Int) :
    stollModel s = some v ↔
      LeadingIntNumeral s v ∧ -(2 ^ 63) ≤ v ∧ v ≤ 2 ^ 63 - 1 := by
  unfold stollModel
  cases hp : parseLeadingInt s with
  | none =>
    constructor
    · intro h
      exact absurd h (by simp)
    · rintro ⟨hnum, _⟩
      have hcontra := (parseLeadingInt_some_iff s v).mpr hnum
      rw [hp] at hcontra
      exact Option.noConfusion hcontra
  | some u =>
    dsimp only
    by_cases hrange : -(2 ^ 63) ≤ u ∧ u ≤ 2 ^ 63 - 1
    · rw [if_pos hrange]
      constructor
      · intro h
        injection h with hu
        subst hu
        exact ⟨(parseLeadingInt_some_iff s u).mp hp, hrange⟩
      · rintro ⟨hnum, hr⟩
        have hpv := (parseLeadingInt_some_iff s v).mpr hnum
        rw [hp] at hpv
        injection hpv with hu
        rw [hu]
    · rw [if_neg hrange]
      constructor
      · intro h
        exact absurd h (by simp)
      · rintro ⟨hnum, hr⟩
        have hpv := (parseLeadingInt_some_iff s v).mpr hnum
        rw [hp] at hpv
        injection hpv with hu
        subst hu
        exact absurd hr hrange

theorem specIntegerNumeral_imp_stoll (s : Str) (v : Int)
    (h : specIntegerNumeral s = some v) : stollModel s = some v := by
  simp only [specIntegerNumeral] at h
  unfold stollModel
  simp only [parseLeadingInt]
  cases ht : s.dropWhile (fun c => decide (c ∈ wsChars)) with
  | nil =>
    rw [ht] at h
    simp at h
  | cons c t' =>
    rw [ht] at h
    by_cases hm : c = '-'
    · subst hm
      simp [-List.takeWhile_eq_nil_iff, -List.dropWhile_eq_nil_iff] at h ⊢
      obtain ⟨⟨hne, hwsrest⟩, hrange, hval⟩ := h
      cases hds : t'.takeWhile Char.isDigit with
      | nil => exact absurd hds hne
      | cons d ds' =>
        rw [hds] at hval hrange
        rw [if_neg (List.cons_ne_nil d ds')]
        dsimp only
        have hcond : -(9223372036854775808 : Int) ≤ -(digitsVal (d :: ds') : Int) ∧
            -(digitsVal (d :: ds') : Int) ≤ 9223372036854775807 := by
          constructor <;> omega
        rw [if_pos hcond, hval]
    · by_cases hp2 : c = '+'
      · subst hp2
        simp [-List.takeWhile_eq_nil_iff, -List.dropWhile_eq_nil_iff] at h
      · simp [hm, hp2, -List.takeWhile_eq_nil_iff, -List.dropWhile_eq_nil_iff] at h ⊢
        obtain ⟨⟨hne, hwsrest⟩, hrange, hval⟩ := h
        cases hds : (c :: t').takeWhile Char.isDigit with
        | nil => exact absurd hds hne
        | cons d ds' =>
          rw [hds] at hval hrange
          rw [if_neg (List.cons_ne_nil d ds')]
          dsimp only
          have hcond : -(9223372036854775808 : Int) ≤ (digitsVal (d :: ds') : Int) ∧
              (digitsVal (d :: ds') : Int) ≤ 9223372036854775807 := by
            constructor <;> omega
          rw [if_pos hcond, hval]

/-- Claim C5 counterexample: the stripped text "1-2" is not a base-10
signed integer numeral under the spec's reading (`specIntegerNumeral`
rejects it), yet it is a candidate and the integer variant does not fail on
it: `std::stoll` leniently parses the leading numeral "1" and the sort call
succeeds, so not every malformed stripped text raises the conversion
failure. -/
theorem claim5_counterexample :
    specIntegerNumeral "1-2".data = none ∧
    considerStringEmpty (variantPrepare SortVariant.integer "1-2".data) = false ∧
    stollModel (variantPrepare SortVariant.integer "1-2".data) = some 1 ∧
    sortRel SortVariant.integer false ["1-2".data]
      (SortResult.success ["1-2".data]) ∧
    ¬ sortRel SortVariant.integer false ["1-2".data] (SortResult.failure 0) := by
  have hcl : numericClassify (variantPrepare SortVariant.integer)
      (variantConv SortVariant.integer) ["1-2".data] =
      Except.ok ([(0, 1)], []) := by decide
  refine ⟨by decide, by decide, by decide, ?_, ?_⟩
  · exact Or.inr ⟨[(0, 1)], [], [(0, 1)], hcl, ⟨by decide, by decide⟩, rfl⟩
  · rintro (⟨i, hcl2, hr⟩ | ⟨ps, es, sp, hcl2, hs, hr⟩)
    · rw [hcl] at hcl2
      exact Except.noConfusion hcl2
    · exact SortResult.noConfusion hr

/-- Claim C5 as amended: under the integer variant, conversion succeeds
exactly on strings whose stripped text starts (after whitespace and an
optional sign) with at least one digit, the key being the value of that
maximal leading digit run, negated under a minus sign, provided it lies in
the signed 64-bit range; any trailing admissible content after the leading
numeral is ignored rather than rejected.  Every text that is well-formed in
the spec's stricter sense still converts to the same value, and any
candidate whose conversion fails makes the whole call fail with no output
returned. -/
theorem claim5_amended_leading_numeral :
    (∀ (s : Str) (v : Int), stollModel s = some v ↔
      LeadingIntNumeral s v ∧ -(2 ^ 63) ≤ v ∧ v ≤ 2 ^ 63 - 1) ∧
    (∀ (s : Str) (v : Int), specIntegerNumeral s = some v → stollModel s = some v) ∧
    (∀ (descending : Bool) (lines : List Str) (i : Nat), i < lines.length →
      variantLineFails SortVariant.integer (lines.getD i []) = true →
      ∀ out, ¬ sortRel SortVariant.integer descending lines
        (SortResult.success out)) := by
  refine ⟨stollModel_some_iff, specIntegerNumeral_imp_stoll, ?_⟩
  intro descending lines i hi hfail out hrel
  obtain ⟨j, _, _, _, _, hno⟩ := numericSortRel_fail_spec
    (variantPrepare SortVariant.integer) (variantConv SortVariant.integer)
    descending lines ⟨i, hi, hfail⟩
  exact hno out hrel

/-- Witness for the amended C5: " -42" is well-formed and converts to -42;
the candidate "-" fails and poisons its whole call. -/
theorem claim5_amended_leading_numeral_witness :
    specIntegerNumeral " -42".data = some (-42) ∧
    stollModel " -42".data = some (-42) ∧
    variantLineFails SortVariant.integer "-".data = true ∧
    ¬ sortRel SortVariant.integer false ["-".data]
      (SortResult.success ["-".data]) := by
  refine ⟨by decide, ?_, by decide, ?_⟩
  · exact claim5_amended_leading_numeral.2.1 " -42".data (-42) (by decide)
  · exact claim5_amended_leading_numeral.2.2 false ["-".data] 0 (by decide)
      (by decide) ["-".data]

/-- Claim C8 counterexample: the descending integer sort of ["05", "5"],
two lines with the equal key 5, admits the output ["5", "05"], so a tied
group's internal original order is not kept in both directions as the
claim requires. -/
theorem claim8_counterexample :
    stollModel (variantPrepare SortVariant.integer "05".data) = some 5 ∧
    stollModel (variantPrepare SortVariant.integer "5".data) = some 5 ∧
    sortRel SortVariant.integer true ["05".data, "5".data]
      (SortResult.success ["5".data, "05".data]) ∧
    ["5".data, "05".data] ≠ ["05".data, "5".data] := by
  refine ⟨by decide, by decide, ?_, by decide⟩
  exact Or.inr ⟨[(0, 5), (1, 5)], [], [(1, 5), (0, 5)], by decide,
    ⟨by decide, by decide⟩, rfl⟩

/-- Claim C8 as amended: reversing the direction reverses the ordering, but
the internal order of tied groups is not guaranteed in either direction.
For the lexicographic variant the descending output is exactly the reverse
of the ascending output; for every numeric variant the two directions fail
identically, and on success the ascending output is empties followed by
candidates while the descending output is a candidate block followed by the
same empties, the descending candidate block being a permutation of the
ascending one whose key sequence is reversed. -/
theorem claim8_amended_direction_symmetry :
    (∀ (lines : List Str) (r1 r2 : SortResult),
      sortRel SortVariant.lexicographic false lines r1 →
      sortRel SortVariant.lexicographic true lines r2 →
      ∃ o1 o2, r1 = SortResult.success o1 ∧ r2 = SortResult.success o2 ∧
        o2 = o1.reverse) ∧
    (∀ (v : SortVariant) (lines : List Str) (i : Nat),
      v ≠ SortVariant.lexicographic →
      (sortRel v false lines (SortResult.failure i) ↔
        sortRel v true lines (SortResult.failure i))) ∧
    (∀ (v : SortVariant) (lines o1 o2 : List Str),
      v ≠ SortVariant.lexicographic →
      sortRel v false lines (SortResult.success o1) →
      sortRel v true lines (SortResult.success o2) →
      ∃ c1 c2, o1 = variantEmpties v lines ++ c1 ∧
        o2 = c2 ++ variantEmpties v lines ∧
        List.Perm c2 c1 ∧
        variantKeys v c2 = (variantKeys v c1).reverse) := by
  refine ⟨?_, ?_, ?_⟩
  · intro lines r1 r2 h1 h2
    obtain ⟨o1, hr1, hs1⟩ := h1
    obtain ⟨o2, hr2, hs2⟩ := h2
    exact ⟨o1, o2, hr1, hr2, lexSort_reverse lines o1 o2 hs1 hs2⟩
  · intro v lines i hv
    cases v with
    | lexicographic => exact absurd rfl hv
    | integer =>
      exact (numericSortRel_failure_iff _ _ false lines i).trans
        (numericSortRel_failure_iff _ _ true lines i).symm
    | decimalComma =>
      exact (numericSortRel_failure_iff _ _ false lines i).trans
        (numericSortRel_failure_iff _ _ true lines i).symm
    | decimalDot =>
      exact (numericSortRel_failure_iff _ _ false lines i).trans
        (numericSortRel_failure_iff _ _ true lines i).symm
  · intro v lines o1 o2 hv h1 h2
    cases v with
    | lexicographic => exact absurd rfl hv
    | integer => exact numericSortRel_reverse _ _ lines o1 o2 h1 h2
    | decimalComma => exact numericSortRel_reverse _ _ lines o1 o2 h1 h2
    | decimalDot => exact numericSortRel_reverse _ _ lines o1 o2 h1 h2

/-- Witness for the amended C8: a concrete lexicographic pair of calls in
the two directions, with the descending output the reverse of the
ascending one. -/
theorem claim8_amended_direction_symmetry_witness :
    sortRel SortVariant.lexicographic false ["b".data, "a".data]
      (SortResult.success ["a".data, "b".data]) ∧
    sortRel SortVariant.lexicographic true ["b".data, "a".data]
      (SortResult.success ["b".data, "a".data]) ∧
    ∃ o1 o2, SortResult.success ["a".data, "b".data] = SortResult.success o1 ∧
      SortResult.success ["b".data, "a".data] = SortResult.success o2 ∧
      o2 = o1.reverse := by
  have h1 : sortRel SortVariant.lexicographic false ["b".data, "a".data]
      (SortResult.success ["a".data, "b".data]) :=
    ⟨["a".data, "b".data], rfl, by decide, by decide⟩
  have h2 : sortRel SortVariant.lexicographic true ["b".data, "a".data]
      (SortResult.success ["b".data, "a".data]) :=
    ⟨["b".data, "a".data], rfl, by decide, by decide⟩
  exact ⟨h1, h2, claim8_amended_direction_symmetry.1 ["b".data, "a".data] _ _ h1 h2⟩

end Sorters
